import Mathlib

/-!
Verification development for the wildcard/complement pattern matcher
(Aho-Corasick automaton over literal fragments and single forbidden
characters, plus a sliding-window scanner with circular bookkeeping).

Modelling conventions, used throughout:

* Bytes are modelled as natural numbers; C strings and std::string
  values become lists of naturals.

* Automaton states are identified with their paths from the root.  The
  trie built by repeated calls to extendForest contains exactly one
  state per distinct prefix of an inserted fragment (extendForest reuses
  an existing transition whenever one matches and otherwise allocates a
  fresh state), so a state is determined by, and determines, the byte
  string spelled along the unique path from the root to it.  A state
  pointer in the C++ code is therefore rendered as a byte list, the root
  being the empty list, and the test findTransition(s, c) != nullptr
  becomes the test that the path s ++ [c] again lies in the trie
  (isNode below).

* The machine-level size_t arithmetic of the scanner is rendered with
  Nat and truncated subtraction.  A separate checked variant of the
  scanner (scanChecked) guards every subtraction, every container
  access and every modulus, returning none whenever the C++ code would
  rely on an unguarded size_t wraparound or an out-of-bounds vector
  access; it is used to settle the safety claims.
-/

namespace AhoWild

/-- Mirrors struct PartInfo: a literal fragment of the de-sugared
pattern.  The C++ struct stores a pointer and a length into the raw
pattern string; here the fragment bytes are copied into a list, the
length being the list length. -/
structure PartInfo where
  offset : Nat
  chars : List Nat
deriving DecidableEq

/-- Mirrors struct Complement: offset in the de-sugared pattern and the
forbidden character at that offset. -/
structure Complement where
  index : Nat
  ch : Nat
deriving DecidableEq

/-- Mirrors struct Pattern. -/
structure Pattern where
  parts : List PartInfo
  complement : List Complement
  length : Nat
deriving DecidableEq

/-- List lookup with an explicit default, the rendering of unchecked
C++ indexing in the unchecked model. -/
def nth {α : Type} (l : List α) (i : Nat) (d : α) : α :=
  (l[i]?).getD d

/-- Fragments paired with their pattern indices, starting at a given
base id.  buildForestFromPattern inserts fragments in exactly this
order: literal parts with ids 0, 1, ... and then the one-byte
complement fragments with ids n, n+1, ... where n is the part count. -/
def withIds (b : Nat) : List (List Nat) → List (Nat × List Nat)
  | [] => []
  | f :: fs => (b, f) :: withIds (b + 1) fs

/-- The id/fragment pairs inserted into the forest by
buildForestFromPattern: each literal part i contributes its byte string
with id i, each complement k contributes the one-byte string of its
forbidden character with id (number of parts) + k. -/
def idFrags (pat : Pattern) : List (Nat × List Nat) :=
  withIds 0 (pat.parts.map (fun p => p.chars)) ++
    withIds pat.parts.length (pat.complement.map (fun c => [c.ch]))

/-- Membership of a path in the trie built by extendForest over the
fragment list: the root (empty path) always exists, and a nonempty path
exists precisely when it is a prefix of some inserted fragment. -/
def isNode (fl : List (Nat × List Nat)) (w : List Nat) : Bool :=
  w.isEmpty || fl.any (fun p => decide (w <+: p.2))

/-- Longest suffix of a byte string that is a path in the trie.  This
is the mathematical description of the state reached by the compiled
automaton; the empty string (root) is always a node, so the recursion
terminates at the root. -/
def LNS (fl : List (Nat × List Nat)) : List Nat → List Nat
  | [] => []
  | a :: t => if isNode fl (a :: t) then a :: t else LNS fl t

/-- The fallback (failure) target of a state: the longest proper suffix
of its path that is again a path in the trie, the root when none is.
This is the value forestIntoStateMachine stores in the fallback field;
the correspondence with the findFallback walk the code performs is
proved below (assignedFb_eq). -/
def fallbackOf (fl : List (Nat × List Nat)) : List Nat → List Nat
  | [] => []
  | _ :: t => LNS fl t

/-- The match records addResult attached to a state during forest
construction: one record (id, length) for every inserted fragment that
ends exactly at this state, in insertion order. -/
def ownResults (fl : List (Nat × List Nat)) (w : List Nat) : List (Nat × Nat) :=
  fl.filterMap (fun p => if p.2 = w then some (p.1, w.length) else none)

/-- Fuel-indexed form of the suffix-closed record list; the fuel only
serves to make the recursion structural, any fuel above the path length
gives the same value (closedResultsF_stable). -/
def closedResultsF (fl : List (Nat × List Nat)) : Nat → List Nat → List (Nat × Nat)
  | 0, _ => []
  | fuel + 1, w =>
    ownResults fl w ++
      (match w with
       | [] => []
       | _ :: _ => closedResultsF fl fuel (fallbackOf fl w))

/-- The record list of a state after forestIntoStateMachine has run:
its own records followed by the (already closed) record list of its
fallback state, the root keeping only its own records.  This mirrors
the line *d->results_back = d->fallback->results of the C++ code; the
claim that the breadth-first pass indeed produces these lists is proved
from the compileFold model below. -/
def closedResults (fl : List (Nat × List Nat)) (w : List Nat) : List (Nat × Nat) :=
  closedResultsF fl (w.length + 1) w

/-- Fuel-indexed form of stepMatching, mirroring the for(;;) loop: take
the transition when one exists, otherwise follow the fallback link, and
report failure from the root, which has no fallback.  The fuel makes
the recursion structural; path length + 1 always suffices because every
fallback hop strictly shortens the path. -/
def stepMatchingF (fl : List (Nat × List Nat)) : Nat → List Nat → Nat → Bool × List Nat
  | 0, _, _ => (false, [])
  | fuel + 1, cs, c =>
    if isNode fl (cs ++ [c]) then (true, cs ++ [c])
    else
      match cs with
      | [] => (false, [])
      | _ :: _ => stepMatchingF fl fuel (fallbackOf fl cs) c

/-- Mirrors bool stepMatching(State **cs, char c): the returned Bool is
the function's return value, the returned list is the new value of
*cs. -/
def stepMatching (fl : List (Nat × List Nat)) (cs : List Nat) (c : Nat) : Bool × List Nat :=
  stepMatchingF fl (cs.length + 1) cs c

/-- Fuel-indexed form of findFallback: walk the fallback chain of the
given state (none renders a null State pointer) until a state with a
transition on the byte is found. -/
def findFallbackF (fl : List (Nat × List Nat)) : Nat → Option (List Nat) → Nat → Option (List Nat)
  | 0, _, _ => none
  | _ + 1, none, _ => none
  | fuel + 1, some v, c =>
    if isNode fl (v ++ [c]) then some (v ++ [c])
    else
      findFallbackF fl fuel
        (match v with
         | [] => none
         | _ :: _ => some (fallbackOf fl v)) c

/-- Mirrors State *findFallback(State *parent, char ch): starting from
parent (possibly null), walk fallback links looking for a state with a
ch-transition; the root's fallback pointer is null (it is never
assigned), so the walk stops there. -/
def findFallback (fl : List (Nat × List Nat)) (o : Option (List Nat)) (c : Nat) :
    Option (List Nat) :=
  findFallbackF fl ((match o with | none => 0 | some v => v.length) + 1) o c

/-- The fallback pointer forestIntoStateMachine assigns to the child of
state s on byte c: d->fallback = df ? df : root, where df is the result
of findFallback(s->fallback, c) and the root's fallback is null. -/
def assignedFb (fl : List (Nat × List Nat)) (s : List Nat) (c : Nat) : List Nat :=
  (findFallback fl
    (match s with | [] => none | _ :: _ => some (fallbackOf fl s)) c).getD []

/-- The bytes on which the trie state s has an outgoing transition:
exactly the next bytes of fragments that continue the path s.  The
dedup mirrors the uniqueness of per-byte transitions in the trie. -/
def childBytes (fl : List (Nat × List Nat)) (s : List Nat) : List Nat :=
  (fl.filterMap (fun p =>
    if s.length < p.2.length ∧ s <+: p.2 then p.2[s.length]? else none)).dedup

/-- Processing of one child d = s ++ [c] of the dequeued state s inside
forestIntoStateMachine: compute d's fallback by the findFallback walk
and append the fallback's current record list to d's list (the
*d->results_back = d->fallback->results splice). -/
def updChild (fl : List (Nat × List Nat)) (s : List Nat)
    (m : List Nat → List (Nat × Nat)) (c : Nat) : List Nat → List (Nat × Nat) :=
  fun w => if w = s ++ [c] then m (s ++ [c]) ++ m (assignedFb fl s c) else m w

/-- One dequeue step of forestIntoStateMachine, acting on the map from
states to their current record lists: for every child d of s, compute
d's fallback by the findFallback walk and append the fallback's current
record list to d's list. -/
def compileStep (fl : List (Nat × List Nat)) (m : List Nat → List (Nat × Nat)) (s : List Nat) :
    List Nat → List (Nat × Nat) :=
  (childBytes fl s).foldl (updChild fl s) m

/-- The record lists produced by forestIntoStateMachine, processing the
states in the given queue order (the breadth-first order dequeues
states in nondecreasing depth, which is all the correctness proof
needs); initially every state carries its own records from the forest
construction. -/
def compileFold (fl : List (Nat × List Nat)) (order : List (List Nat)) :
    List Nat → List (Nat × Nat) :=
  order.foldl (compileStep fl) (ownResults fl)

/-- The record list of a state written as one pass over the fragment
list: one record per fragment whose byte string is a suffix of the
state's path.  Proved permutation-equal to closedResults. -/
def suffixRecords (fl : List (Nat × List Nat)) (w : List Nat) : List (Nat × Nat) :=
  fl.filterMap (fun p => if p.2 <:+ w then some (p.1, p.2.length) else none)

/-- Invariant of the breadth-first pass of forestIntoStateMachine after
the states in P have been dequeued: every state whose parent was
already processed carries its closed record list, every other state
still carries only the records addResult inserted during forest
construction. -/
def CompInv (fl : List (Nat × List Nat)) (P : List (List Nat))
    (m : List Nat → List (Nat × Nat)) : Prop :=
  (∀ d, isNode fl d = true → d ≠ [] → d.dropLast ∈ P → m d = closedResults fl d) ∧
  (∀ d, d = [] ∨ d.dropLast ∉ P → m d = ownResults fl d)

/-- The total offset the scanner computes for a record, lines 627-635:
for a complement record (pattern index at least the part count) the
complement's index, for a literal record the part's offset plus the
record length minus one (the offset of the fragment's last byte).
Unchecked indexing is rendered with default values; the checked model
below guards it. -/
def recTotalOff (pat : Pattern) (r : Nat × Nat) : Nat :=
  if pat.parts.length ≤ r.1 then
    (nth pat.complement (r.1 - pat.parts.length) ⟨0, 0⟩).index
  else (nth pat.parts r.1 ⟨0, []⟩).offset + r.2 - 1

/-- Processing of one match record inside getTotalMatches, lines
626-673: discard records whose total offset lies beyond the current
position or whose implied window would run past the end of the text;
otherwise map the record to its circular slot and either mark the slot
disabled (complement) or, unless the slot is disabled, bump its literal
counter. -/
def procRecord (pat : Pattern) (n i shift : Nat) (a : List Nat × List Bool) (r : Nat × Nat) :
    List Nat × List Bool :=
  let toff := recTotalOff pat r
  if i < toff then a
  else if n < i - toff + pat.length then a
  else
    let idx := (pat.length + shift - toff) % pat.length
    if pat.parts.length ≤ r.1 then (a.1, a.2.set idx true)
    else if nth a.2 idx false then a
    else (a.1.set idx (nth a.1 idx 0 + 1), a.2)

/-- Fold of procRecord over the record list of the current state. -/
def procRecords (pat : Pattern) (n i shift : Nat) (rs : List (Nat × Nat))
    (a : List Nat × List Bool) : List Nat × List Bool :=
  rs.foldl (procRecord pat n i shift) a

/-- The scanner's working state: the two circular arrays, the write
index match_shift, the collected matches and the current automaton
state. -/
structure ScanSt where
  pm : List Nat
  dis : List Bool
  shift : Nat
  ms : List Nat
  cs : List Nat
deriving DecidableEq

/-- One iteration of the scanning loop of getTotalMatches for text
position i with byte c: reset the slot about to be reused, advance the
automaton, process the current state's record list when the step
succeeded, advance match_shift cyclically, and emit a match when the
window closing at i is complete. -/
def scanStep (pat : Pattern) (fl : List (Nat × List Nat)) (n : Nat) (st : ScanSt)
    (i c : Nat) : ScanSt :=
  let pm0 := st.pm.set st.shift 0
  let dis0 := st.dis.set st.shift false
  let pr := stepMatching fl st.cs c
  let a := if pr.1 then procRecords pat n i st.shift (closedResults fl pr.2) (pm0, dis0)
           else (pm0, dis0)
  let shift1 := if st.shift + 1 = pat.length then 0 else st.shift + 1
  let ms := if pat.length ≤ i + 1 && !(nth a.2 shift1 false) &&
               (nth a.1 shift1 0 == pat.parts.length)
            then st.ms ++ [i + 1 - pat.length] else st.ms
  ⟨a.1, a.2, shift1, ms, pr.2⟩

/-- The scanning loop over the remaining text, i being the absolute
position of the next byte. -/
def scanLoop (pat : Pattern) (fl : List (Nat × List Nat)) (n : Nat) :
    ScanSt → Nat → List Nat → ScanSt
  | st, _, [] => st
  | st, i, c :: rest => scanLoop pat fl n (scanStep pat fl n st i c) (i + 1) rest

/-- The scanner's initial state: zeroed counters, cleared disable
flags, match_shift 0, no matches, current state root. -/
def initSt (pat : Pattern) : ScanSt :=
  ⟨List.replicate pat.length 0, List.replicate pat.length false, 0, [], []⟩

/-- Model of getTotalMatches(root, pat, str): the automaton is the one
built from the pattern by buildForestFromPattern and
forestIntoStateMachine, represented by its fragment list. -/
def getTotalMatches (pat : Pattern) (t : List Nat) : List Nat :=
  (scanLoop pat (idFrags pat) t.length (initSt pat) 0 t).ms

/-- Whether the compound pattern matches the text at start offset s:
every literal part reproduces the text bytes at its offset and no
complement's forbidden character occurs at its offset. -/
def matchesAtB (pat : Pattern) (t : List Nat) (s : Nat) : Bool :=
  pat.parts.all (fun p => decide ((t.drop (s + p.offset)).take p.chars.length = p.chars)) &&
  pat.complement.all (fun c => !(nth t (s + c.index) 0 == c.ch))

/-- The Data Model invariants on a Pattern: positive total length,
every part nonempty and contained in the window, every complement
offset inside the window, parts pairwise disjoint, at most one
complement per offset. -/
def PatInv (pat : Pattern) : Prop :=
  0 < pat.length ∧
  (∀ p ∈ pat.parts, 0 < p.chars.length ∧ p.offset + p.chars.length ≤ pat.length) ∧
  (∀ c ∈ pat.complement, c.index < pat.length) ∧
  pat.parts.Pairwise
    (fun p q => p.offset + p.chars.length ≤ q.offset ∨ q.offset + q.chars.length ≤ p.offset) ∧
  (pat.complement.map (fun c => c.index)).Nodup

instance patInvDecidable (pat : Pattern) : Decidable (PatInv pat) := by
  unfold PatInv
  letI : DecidableRel (fun p q : PartInfo =>
      p.offset + p.chars.length ≤ q.offset ∨ q.offset + q.chars.length ≤ p.offset) :=
    fun p q => inferInstanceAs (Decidable (_ ∨ _))
  exact inferInstance

/-- Targeting predicate of a complement record at text position i: the
record passes both range guards (its pattern index marks it as a
complement record). -/
def tgtC (pat : Pattern) (n i : Nat) (r : Nat × Nat) : Prop :=
  pat.parts.length ≤ r.1 ∧ recTotalOff pat r ≤ i ∧ i - recTotalOff pat r + pat.length ≤ n

/-- Targeting predicate of a literal record at text position i. -/
def tgtL (pat : Pattern) (n i : Nat) (r : Nat × Nat) : Prop :=
  r.1 < pat.parts.length ∧ recTotalOff pat r ≤ i ∧ i - recTotalOff pat r + pat.length ≤ n

instance tgtCDecidable (pat : Pattern) (n i : Nat) (r : Nat × Nat) : Decidable (tgtC pat n i r) := by
  unfold tgtC
  exact inferInstance

instance tgtLDecidable (pat : Pattern) (n i : Nat) (r : Nat × Nat) : Decidable (tgtL pat n i r) := by
  unfold tgtL
  exact inferInstance

/-- The circular slot a record updates, as computed on line 653. -/
def slotOf (pat : Pattern) (shift : Nat) (r : Nat × Nat) : Nat :=
  (pat.length + shift - recTotalOff pat r) % pat.length

/-- A complement has fired for candidate start s strictly before text
position m (and the candidate's window fits in the text, which is what
the scanner's range guard enforces before disabling a slot). -/
def DisP (pat : Pattern) (t : List Nat) (s m : Nat) : Prop :=
  s + pat.length ≤ t.length ∧
    ∃ c ∈ pat.complement, s + c.index < m ∧ nth t (s + c.index) 0 = c.ch

instance disPDecidable (pat : Pattern) (t : List Nat) (s m : Nat) : Decidable (DisP pat t s m) := by
  unfold DisP
  exact inferInstance

/-- A literal part has been fully read by text position m (exclusive)
for candidate start s, and its bytes match the text there. -/
def partHitB (t : List Nat) (s m : Nat) (p : PartInfo) : Bool :=
  decide (s + p.offset + p.chars.length ≤ m) &&
    decide ((t.drop (s + p.offset)).take p.chars.length = p.chars)

/-- Number of literal parts already confirmed for candidate start s by
text position m; zero for a candidate whose window would overrun the
text, since the scanner's range guard discards those records. -/
def CountM (pat : Pattern) (t : List Nat) (s m : Nat) : Nat :=
  if s + pat.length ≤ t.length then pat.parts.countP (partHitB t s m) else 0

/-- The scanner's loop invariant, before processing text position i:
lengths of the circular arrays, the write index, the automaton state
(longest trie-path suffix of the consumed text), per-slot meaning of
the disable flags and counters for the in-flight candidates, and the
matches collected so far. -/
def ScanInv (pat : Pattern) (t : List Nat) (i : Nat) (st : ScanSt) : Prop :=
  st.pm.length = pat.length ∧ st.dis.length = pat.length ∧
  st.shift = i % pat.length ∧
  st.cs = LNS (idFrags pat) (t.take i) ∧
  (∀ s, s < i → i ≤ s + pat.length →
    nth st.dis (s % pat.length) false = decide (DisP pat t s i)) ∧
  (∀ s, s < i → i ≤ s + pat.length → ¬ DisP pat t s i →
    nth st.pm (s % pat.length) 0 = CountM pat t s i) ∧
  st.ms = (List.range (i + 1 - pat.length)).filter (matchesAtB pat t)

/-- Modelled from the spec: the naive quadratic substring search a
plain-pattern scan is compared against (spec section 8, first testable
property). -/
def naiveSearch (needle t : List Nat) : List Nat :=
  (List.range (t.length + 1 - needle.length)).filter
    (fun s => decide ((t.drop s).take needle.length = needle))

/-- Guarded subtraction: the checked rendering of size_t subtraction,
failing where the C++ expression would wrap around. -/
def csub (a b : Nat) : Option Nat :=
  if b ≤ a then some (a - b) else none

/-- Guarded remainder: fails on a zero modulus. -/
def cmod (a b : Nat) : Option Nat :=
  if b = 0 then none else some (a % b)

/-- Guarded element access: the checked rendering of vector indexing. -/
def cidx {α : Type} (l : List α) (i : Nat) : Option α :=
  l[i]?

/-- Guarded element update: the checked rendering of vector element
assignment. -/
def cset {α : Type} (l : List α) (i : Nat) (v : α) : Option (List α) :=
  if i < l.length then some (l.set i v) else none

/-- Checked form of the scanner's total-offset computation. -/
def recTotalOffC (pat : Pattern) (r : Nat × Nat) : Option Nat :=
  if pat.parts.length ≤ r.1 then
    (cidx pat.complement (r.1 - pat.parts.length)).map (fun c => c.index)
  else (cidx pat.parts r.1).bind (fun p => csub (p.offset + r.2) 1)

/-- Checked form of procRecord: identical control flow, with every
subtraction, modulus and container access guarded. -/
def procRecordC (pat : Pattern) (n i shift : Nat) (a : List Nat × List Bool) (r : Nat × Nat) :
    Option (List Nat × List Bool) :=
  (recTotalOffC pat r).bind fun toff =>
  if i < toff then some a
  else (csub i toff).bind fun start =>
  if n < start + pat.length then some a
  else (csub (pat.length + shift) toff).bind fun dif =>
  (cmod dif pat.length).bind fun idx =>
  if pat.parts.length ≤ r.1 then (cset a.2 idx true).map (fun d => (a.1, d))
  else (cidx a.2 idx).bind fun db =>
  if db then some a
  else (cidx a.1 idx).bind fun pv =>
  (cset a.1 idx (pv + 1)).map (fun pmv => (pmv, a.2))

/-- Checked fold over the record list. -/
def procRecordsC (pat : Pattern) (n i shift : Nat) (rs : List (Nat × Nat))
    (a : List Nat × List Bool) : Option (List Nat × List Bool) :=
  rs.foldlM (procRecordC pat n i shift) a

/-- Checked form of scanStep.  The emission test mirrors the
short-circuit evaluation of the C++ condition: the circular arrays are
only read once the window-length test has passed, and the counter only
once the disable flag was found clear. -/
def scanStepC (pat : Pattern) (fl : List (Nat × List Nat)) (n : Nat) (st : ScanSt)
    (i c : Nat) : Option ScanSt :=
  (cset st.pm st.shift 0).bind fun pm0 =>
  (cset st.dis st.shift false).bind fun dis0 =>
  let pr := stepMatching fl st.cs c
  (if pr.1 then procRecordsC pat n i st.shift (closedResults fl pr.2) (pm0, dis0)
   else some (pm0, dis0)).bind fun a =>
  let shift1 := if st.shift + 1 = pat.length then 0 else st.shift + 1
  (if pat.length ≤ i + 1 then
     (cidx a.2 shift1).bind fun db =>
     if db then some st.ms
     else (cidx a.1 shift1).bind fun pv =>
       if pv == pat.parts.length then (csub (i + 1) pat.length).map (fun s0 => st.ms ++ [s0])
       else some st.ms
   else some st.ms).bind fun ms =>
  some ⟨a.1, a.2, shift1, ms, pr.2⟩

/-- Checked scanning loop. -/
def scanLoopC (pat : Pattern) (fl : List (Nat × List Nat)) (n : Nat) :
    ScanSt → Nat → List Nat → Option (List Nat)
  | st, _, [] => some st.ms
  | st, i, c :: rest =>
    (scanStepC pat fl n st i c).bind fun st1 => scanLoopC pat fl n st1 (i + 1) rest

/-- Checked form of getTotalMatches: returns none precisely when the
C++ scanner would perform an out-of-bounds vector access, a wrapping
size_t subtraction or a modulus by zero. -/
def scanChecked (pat : Pattern) (t : List Nat) : Option (List Nat) :=
  scanLoopC pat (idFrags pat) t.length (initSt pat) 0 t

/-- Byte of the pattern's C string at an index: positions at or past
the length read as 0, the NUL terminator (reads past the terminator,
which the C++ code can perform by one byte after a trailing complement
marker, are modelled as 0 as well). -/
def cstr (p : List Nat) (i : Nat) : Nat :=
  nth p i 0

/-- The inner for loop of createPatternStructure: advance until the
current byte is NUL, the wildcard or the complement marker. -/
def scanEndF (p : List Nat) (wc cc : Nat) : Nat → Nat → Nat
  | 0, e => e
  | fuel + 1, e =>
    let c := cstr p e
    if c = 0 ∨ c = wc ∨ c = cc then e else scanEndF p wc cc fuel (e + 1)

/-- The wildcard-skipping loop of createPatternStructure. -/
def skipWildF (p : List Nat) (wc : Nat) : Nat → Nat → Nat
  | 0, e => e
  | fuel + 1, e => if cstr p e = wc then skipWildF p wc fuel (e + 1) else e

/-- The main loop of createPatternStructure, carrying the cursor, the
running extra_offset and the accumulated parts and complements.  The
fuel only bounds the iteration count; the pattern length plus one
suffices for every input whose scan advances (the C++ loop would fail
to advance, and loop forever, only on an embedded NUL byte that is
neither wildcard nor marker). -/
def cpsLoopF (p : List Nat) (wc cc : Nat) :
    Nat → Nat → Nat → List PartInfo → List Complement →
    List PartInfo × List Complement × Nat
  | 0, _, extra, parts, compls => (parts, compls, extra)
  | fuel + 1, pc, extra, parts, compls =>
    if p.length ≤ pc then (parts, compls, extra)
    else
      let e := scanEndF p wc cc (p.length + 1 - pc) pc
      let parts1 :=
        if e ≠ pc then parts ++ [⟨pc - extra, (p.drop pc).take (e - pc)⟩] else parts
      if cc ≠ 0 ∧ cstr p e = cc then
        let compls1 := compls ++ [⟨e - extra, cstr p (e + 1)⟩]
        let pc2 := skipWildF p wc (p.length + 2) (e + 2)
        cpsLoopF p wc cc fuel pc2 (extra + 1) parts1 compls1
      else
        let pc2 := skipWildF p wc (p.length + 2) e
        cpsLoopF p wc cc fuel pc2 extra parts1 compls

/-- Model of createPatternStructure(pat, wildcard, complement): lex the
raw pattern into literal parts and complements, the final length being
the raw length minus one per complement marker consumed. -/
def createPatternStructure (p : List Nat) (wc cc : Nat) : Pattern :=
  let r := cpsLoopF p wc cc (p.length + 1) 0 0 [] []
  ⟨r.1, r.2.1, p.length - r.2.2⟩

/-- Concrete pattern for the witnesses: the spec's scenario "ab?c",
parts "ab" at offset 0 and "c" at offset 3, total length 4. -/
def exPat : Pattern :=
  ⟨[⟨0, [97, 98]⟩, ⟨3, [99]⟩], [], 4⟩

/-- Concrete pattern with a complement: "ab?c" plus the constraint that
offset 2 must not be the byte 122 (the letter z). -/
def exPatC : Pattern :=
  ⟨[⟨0, [97, 98]⟩, ⟨3, [99]⟩], [⟨2, 122⟩], 4⟩

/-- Concrete text for the witnesses: "xabzcabqc". -/
def exText : List Nat :=
  [120, 97, 98, 122, 99, 97, 98, 113, 99]

/-- The Pattern createPatternStructure produces for the raw pattern
"a!" with wildcard '?' and complement marker '!': a trailing marker
reads the NUL terminator as its forbidden character and yields a
complement at offset 1 in a de-sugared pattern of length 1 — a
malformed Pattern (complement offset not below the total length). -/
def badPat : Pattern :=
  ⟨[⟨0, [97]⟩], [⟨1, 0⟩], 1⟩

/-- Concrete fragment list for the compile witnesses. -/
def exFl : List (Nat × List Nat) :=
  [(0, [1, 2]), (1, [3])]

/-- A breadth-first dequeue order for exFl's trie. -/
def exOrder : List (List Nat) :=
  [[], [1], [3], [1, 2]]

/-! ### Basic lemmas about list access -/

theorem nth_set_self {α : Type} {l : List α} {i : Nat} (v d : α) (h : i < l.length) :
    nth (l.set i v) i d = v := by
  simp [nth, List.getElem?_set_self h]

theorem nth_set_ne {α : Type} {l : List α} {i j : Nat} (v d : α) (h : i ≠ j) :
    nth (l.set i v) j d = nth l j d := by
  simp [nth, List.getElem?_set_ne h]

theorem nth_replicate {α : Type} {n i : Nat} (x d : α) :
    nth (List.replicate n x) i d = if i < n then x else d := by
  by_cases h : i < n <;> simp [nth, List.getElem?_replicate, h]

theorem nth_of_lt {α : Type} {l : List α} {i : Nat} (d : α) (h : i < l.length) :
    nth l i d = l[i] := by
  simp [nth, List.getElem?_eq_getElem h]

/-! ### The trie of fragment prefixes -/

theorem isNode_nil (fl : List (Nat × List Nat)) : isNode fl [] = true := rfl

theorem isNode_iff {fl : List (Nat × List Nat)} {w : List Nat} :
    isNode fl w = true ↔ w = [] ∨ ∃ p ∈ fl, w <+: p.2 := by
  simp [isNode, List.any_eq_true, List.isEmpty_iff]

theorem mem_fl_isNode {fl : List (Nat × List Nat)} {p : Nat × List Nat} (hp : p ∈ fl) :
    isNode fl p.2 = true :=
  isNode_iff.mpr (Or.inr ⟨p, hp, List.prefix_refl _⟩)

theorem isNode_snoc_down {fl : List (Nat × List Nat)} {w : List Nat} {c : Nat}
    (h : isNode fl (w ++ [c]) = true) : isNode fl w = true := by
  rcases isNode_iff.mp h with h0 | ⟨p, hp, hpre⟩
  · simp at h0
  · exact isNode_iff.mpr (Or.inr ⟨p, hp, (List.prefix_append w [c]).trans hpre⟩)

/-! ### The longest node suffix -/

theorem LNS_eq_self {fl : List (Nat × List Nat)} {w : List Nat} (h : isNode fl w = true) :
    LNS fl w = w := by
  cases w with
  | nil => rfl
  | cons a t => simp [LNS, h]

theorem LNS_suffix (fl : List (Nat × List Nat)) (w : List Nat) : LNS fl w <:+ w := by
  induction w with
  | nil => simp [LNS]
  | cons a t ih =>
    by_cases h : isNode fl (a :: t) = true
    · simp [LNS, h]
    · simp only [LNS, h, if_false]
      exact ih.trans (List.suffix_cons a t)

theorem LNS_length_le (fl : List (Nat × List Nat)) (w : List Nat) :
    (LNS fl w).length ≤ w.length :=
  (LNS_suffix fl w).length_le

theorem LNS_isNode (fl : List (Nat × List Nat)) (w : List Nat) :
    isNode fl (LNS fl w) = true := by
  induction w with
  | nil => rfl
  | cons a t ih =>
    by_cases h : isNode fl (a :: t) = true
    · simp [LNS, h]
    · simpa [LNS, h] using ih

theorem LNS_max {fl : List (Nat × List Nat)} {v w : List Nat}
    (hs : v <:+ w) (hn : isNode fl v = true) : v <:+ LNS fl w := by
  induction w with
  | nil =>
    rw [List.suffix_nil.mp hs]
    simp [LNS]
  | cons a t ih =>
    by_cases h : isNode fl (a :: t) = true
    · rw [LNS_eq_self h]; exact hs
    · rcases List.suffix_cons_iff.mp hs with rfl | hs2
      · exact absurd hn h
      · simpa [LNS, h] using ih hs2

theorem fallbackOf_length_lt {fl : List (Nat × List Nat)} {w : List Nat} (h : w ≠ []) :
    (fallbackOf fl w).length < w.length := by
  cases w with
  | nil => exact absurd rfl h
  | cons a t => exact Nat.lt_succ_of_le (LNS_length_le fl t)

theorem LNS_snoc_LNS (fl : List (Nat × List Nat)) (w : List Nat) (c : Nat) :
    LNS fl (LNS fl w ++ [c]) = LNS fl (w ++ [c]) := by
  induction w with
  | nil => rfl
  | cons a t ih =>
    by_cases h : isNode fl (a :: t) = true
    · rw [LNS_eq_self h]
    · have h2 : ¬ isNode fl (a :: (t ++ [c])) = true := fun hh =>
        h (isNode_snoc_down (w := a :: t) hh)
      have e1 : LNS fl (a :: t) = LNS fl t := by simp [LNS, h]
      have e2 : LNS fl ((a :: t) ++ [c]) = LNS fl (t ++ [c]) := by
        show LNS fl (a :: (t ++ [c])) = LNS fl (t ++ [c])
        simp [LNS, h2]
      rw [e1, e2, ih]

/-! ### Fuel stability and unfolding equations -/

theorem stepMatchingF_stable (fl : List (Nat × List Nat)) :
    ∀ f1 : Nat, ∀ f2 : Nat, ∀ cs : List Nat, ∀ c : Nat,
      cs.length < f1 → cs.length < f2 →
      stepMatchingF fl f1 cs c = stepMatchingF fl f2 cs c := by
  intro f1
  induction f1 with
  | zero => intro f2 cs c h1 h2; omega
  | succ g ih =>
    intro f2 cs c h1 h2
    cases f2 with
    | zero => omega
    | succ g2 =>
      by_cases hn : isNode fl (cs ++ [c]) = true
      · simp [stepMatchingF, hn]
      · cases cs with
        | nil => simp [stepMatchingF, hn]
        | cons a t =>
          simp only [stepMatchingF, hn, Bool.false_eq_true, if_false]
          have h5 := @fallbackOf_length_lt fl (a :: t) (by simp)
          simp only [List.length_cons] at h5 h1 h2
          exact ih g2 (fallbackOf fl (a :: t)) c (by omega) (by omega)

theorem stepMatching_eq (fl : List (Nat × List Nat)) (cs : List Nat) (c : Nat) :
    stepMatching fl cs c =
      if isNode fl (cs ++ [c]) then (true, cs ++ [c])
      else
        match cs with
        | [] => (false, [])
        | _ :: _ => stepMatching fl (fallbackOf fl cs) c := by
  show stepMatchingF fl (cs.length + 1) cs c = _
  by_cases hn : isNode fl (cs ++ [c]) = true
  · simp [stepMatchingF, hn]
  · cases cs with
    | nil => simp [stepMatchingF, hn]
    | cons a t =>
      simp only [stepMatchingF, hn, Bool.false_eq_true, if_false]
      have h5 := @fallbackOf_length_lt fl (a :: t) (by simp)
      simp only [List.length_cons] at h5
      exact stepMatchingF_stable fl (t.length + 1) ((fallbackOf fl (a :: t)).length + 1)
        (fallbackOf fl (a :: t)) c (by omega) (Nat.lt_succ_self _)

/-! ### Characterization of the automaton step -/

theorem LNS_cons_of_not {fl : List (Nat × List Nat)} {a : Nat} {t : List Nat}
    (hn : ¬ isNode fl (a :: t) = true) : LNS fl (a :: t) = LNS fl t := by
  simp only [LNS]
  rw [if_neg hn]

theorem LNS_snoc_of_not {fl : List (Nat × List Nat)} {w : List Nat} {c : Nat}
    (hn : ¬ isNode fl (w ++ [c]) = true) : LNS fl (w ++ [c]) = LNS fl (w.tail ++ [c]) := by
  cases w with
  | nil =>
    show LNS fl [c] = LNS fl [c]
    rfl
  | cons a t =>
    have hn2 : ¬ isNode fl (a :: (t ++ [c])) = true := fun h => hn h
    exact LNS_cons_of_not hn2

theorem LNS_snoc_nil {fl : List (Nat × List Nat)} {c : Nat}
    (hn : ¬ isNode fl ([] ++ [c]) = true) : LNS fl ([] ++ [c]) = [] := by
  have hn2 : ¬ isNode fl [c] = true := fun h => hn h
  show LNS fl [c] = []
  rw [LNS_cons_of_not hn2]
  rfl

theorem stepMatching_char_aux (fl : List (Nat × List Nat)) :
    ∀ m : Nat, ∀ cs : List Nat, cs.length ≤ m → ∀ c : Nat, isNode fl cs = true →
      stepMatching fl cs c = (!(LNS fl (cs ++ [c])).isEmpty, LNS fl (cs ++ [c])) := by
  intro m
  induction m with
  | zero =>
    intro cs hm c _
    have hcs : cs = [] := by
      cases cs with
      | nil => rfl
      | cons a t => simp at hm
    subst hcs
    rw [stepMatching_eq]
    by_cases hn : isNode fl ([] ++ [c]) = true
    · rw [if_pos hn, LNS_eq_self hn]
      rfl
    · rw [if_neg hn, LNS_snoc_nil hn]
      rfl
  | succ m ih =>
    intro cs hm c hnode
    rw [stepMatching_eq]
    by_cases hn : isNode fl (cs ++ [c]) = true
    · rw [if_pos hn, LNS_eq_self hn]
      cases cs <;> rfl
    · rw [if_neg hn]
      cases cs with
      | nil =>
        rw [LNS_snoc_nil hn]
        rfl
      | cons a t =>
        have hfb : isNode fl (fallbackOf fl (a :: t)) = true := LNS_isNode fl t
        have hlen : (fallbackOf fl (a :: t)).length ≤ m := by
          have h5 := @fallbackOf_length_lt fl (a :: t) (by simp)
          simp only [List.length_cons] at h5 hm
          omega
        show stepMatching fl (fallbackOf fl (a :: t)) c = _
        rw [ih (fallbackOf fl (a :: t)) hlen c hfb]
        have he : LNS fl (fallbackOf fl (a :: t) ++ [c]) = LNS fl ((a :: t) ++ [c]) := by
          show LNS fl (LNS fl t ++ [c]) = _
          rw [LNS_snoc_LNS]
          rw [LNS_snoc_of_not hn]
          rfl
        rw [he]

theorem stepMatching_char {fl : List (Nat × List Nat)} {cs : List Nat} (c : Nat)
    (h : isNode fl cs = true) :
    stepMatching fl cs c = (!(LNS fl (cs ++ [c])).isEmpty, LNS fl (cs ++ [c])) :=
  stepMatching_char_aux fl cs.length cs (Nat.le_refl _) c h

/-! ### The findFallback walk -/

theorem findFallbackF_stable (fl : List (Nat × List Nat)) :
    ∀ f1 : Nat, ∀ f2 : Nat, ∀ o : Option (List Nat), ∀ c : Nat,
      (match o with | none => 0 | some v => v.length + 1) ≤ f1 →
      (match o with | none => 0 | some v => v.length + 1) ≤ f2 →
      findFallbackF fl f1 o c = findFallbackF fl f2 o c := by
  intro f1
  induction f1 with
  | zero =>
    intro f2 o c h1 h2
    cases o with
    | none =>
      cases f2 with
      | zero => rfl
      | succ g2 => rfl
    | some v => simp at h1
  | succ g ih =>
    intro f2 o c h1 h2
    cases o with
    | none =>
      cases f2 with
      | zero => rfl
      | succ g2 => rfl
    | some v =>
      cases f2 with
      | zero => simp at h2
      | succ g2 =>
        by_cases hn : isNode fl (v ++ [c]) = true
        · simp [findFallbackF, hn]
        · simp only [findFallbackF, hn, Bool.false_eq_true, if_false]
          cases v with
          | nil =>
            apply ih g2 none c <;> simp
          | cons a t =>
            have h5 := @fallbackOf_length_lt fl (a :: t) (by simp)
            simp only [List.length_cons] at h5 h1 h2
            apply ih g2 (some (fallbackOf fl (a :: t))) c <;> (simp only []; omega)

theorem findFallback_none (fl : List (Nat × List Nat)) (c : Nat) :
    findFallback fl none c = none := rfl

theorem findFallback_some_eq (fl : List (Nat × List Nat)) (v : List Nat) (c : Nat) :
    findFallback fl (some v) c =
      if isNode fl (v ++ [c]) then some (v ++ [c])
      else
        findFallback fl (match v with | [] => none | _ :: _ => some (fallbackOf fl v)) c := by
  show findFallbackF fl (v.length + 1) (some v) c = _
  by_cases hn : isNode fl (v ++ [c]) = true
  · simp [findFallbackF, hn]
  · simp only [findFallbackF, hn, Bool.false_eq_true, if_false]
    cases v with
    | nil => rfl
    | cons a t =>
      show findFallbackF fl (t.length + 1) (some (fallbackOf fl (a :: t))) c = _
      have h5 := @fallbackOf_length_lt fl (a :: t) (by simp)
      simp only [List.length_cons] at h5
      apply findFallbackF_stable fl (t.length + 1) ((fallbackOf fl (a :: t)).length + 1)
        (some (fallbackOf fl (a :: t))) c <;> (simp only []; omega)

theorem findFallback_char_aux (fl : List (Nat × List Nat)) :
    ∀ m : Nat, ∀ v : List Nat, v.length ≤ m → ∀ c : Nat, isNode fl v = true →
      findFallback fl (some v) c =
        if (LNS fl (v ++ [c])).isEmpty then none else some (LNS fl (v ++ [c])) := by
  intro m
  induction m with
  | zero =>
    intro v hm c _
    have hv : v = [] := by
      cases v with
      | nil => rfl
      | cons a t => simp at hm
    subst hv
    rw [findFallback_some_eq]
    by_cases hn : isNode fl ([] ++ [c]) = true
    · rw [if_pos hn, LNS_eq_self hn]
      rfl
    · rw [if_neg hn, LNS_snoc_nil hn]
      rfl
  | succ m ih =>
    intro v hm c hnode
    rw [findFallback_some_eq]
    by_cases hn : isNode fl (v ++ [c]) = true
    · rw [if_pos hn, LNS_eq_self hn]
      have he : (v ++ [c]).isEmpty = false := by
        cases v <;> rfl
      rw [he]
      rfl
    · rw [if_neg hn]
      cases v with
      | nil =>
        rw [LNS_snoc_nil hn]
        rfl
      | cons a t =>
        have hfb : isNode fl (fallbackOf fl (a :: t)) = true := LNS_isNode fl t
        have hlen : (fallbackOf fl (a :: t)).length ≤ m := by
          have h5 := @fallbackOf_length_lt fl (a :: t) (by simp)
          simp only [List.length_cons] at h5 hm
          omega
        show findFallback fl (some (fallbackOf fl (a :: t))) c = _
        rw [ih (fallbackOf fl (a :: t)) hlen c hfb]
        have he : LNS fl (fallbackOf fl (a :: t) ++ [c]) = LNS fl ((a :: t) ++ [c]) := by
          show LNS fl (LNS fl t ++ [c]) = _
          rw [LNS_snoc_LNS]
          rw [LNS_snoc_of_not hn]
          rfl
        rw [he]

theorem assignedFb_eq (fl : List (Nat × List Nat)) (s : List Nat) (c : Nat) :
    assignedFb fl s c = fallbackOf fl (s ++ [c]) := by
  cases s with
  | nil => rfl
  | cons a s2 =>
    show (findFallback fl (some (fallbackOf fl (a :: s2))) c).getD [] = _
    rw [findFallback_char_aux fl (fallbackOf fl (a :: s2)).length (fallbackOf fl (a :: s2))
      (Nat.le_refl _) c (LNS_isNode fl s2)]
    have he : LNS fl (fallbackOf fl (a :: s2) ++ [c]) = LNS fl (s2 ++ [c]) := by
      show LNS fl (LNS fl s2 ++ [c]) = _
      rw [LNS_snoc_LNS]
    rw [he]
    have hfb : fallbackOf fl ((a :: s2) ++ [c]) = LNS fl (s2 ++ [c]) := rfl
    rw [hfb]
    by_cases h : (LNS fl (s2 ++ [c])).isEmpty = true
    · rw [if_pos h, List.isEmpty_iff.mp h]
      rfl
    · rw [if_neg h]
      rfl

/-! ### Unfolding the closed record lists -/

theorem closedResultsF_stable (fl : List (Nat × List Nat)) :
    ∀ f1 : Nat, ∀ f2 : Nat, ∀ w : List Nat,
      w.length < f1 → w.length < f2 →
      closedResultsF fl f1 w = closedResultsF fl f2 w := by
  intro f1
  induction f1 with
  | zero => intro f2 w h1 h2; omega
  | succ g ih =>
    intro f2 w h1 h2
    cases f2 with
    | zero => omega
    | succ g2 =>
      cases w with
      | nil => rfl
      | cons a t =>
        show ownResults fl (a :: t) ++ closedResultsF fl g (fallbackOf fl (a :: t)) =
          ownResults fl (a :: t) ++ closedResultsF fl g2 (fallbackOf fl (a :: t))
        have h5 := @fallbackOf_length_lt fl (a :: t) (by simp)
        simp only [List.length_cons] at h5 h1 h2
        rw [ih g2 (fallbackOf fl (a :: t)) (by omega) (by omega)]

theorem closedResults_nil (fl : List (Nat × List Nat)) :
    closedResults fl [] = ownResults fl [] := by
  show ownResults fl [] ++ [] = ownResults fl []
  simp

theorem closedResults_cons (fl : List (Nat × List Nat)) (a : Nat) (t : List Nat) :
    closedResults fl (a :: t) =
      ownResults fl (a :: t) ++ closedResults fl (fallbackOf fl (a :: t)) := by
  show ownResults fl (a :: t) ++ closedResultsF fl (t.length + 1) (fallbackOf fl (a :: t)) =
    ownResults fl (a :: t) ++ closedResultsF fl ((fallbackOf fl (a :: t)).length + 1)
      (fallbackOf fl (a :: t))
  have h5 := @fallbackOf_length_lt fl (a :: t) (by simp)
  simp only [List.length_cons] at h5
  rw [closedResultsF_stable fl (t.length + 1) ((fallbackOf fl (a :: t)).length + 1)
    (fallbackOf fl (a :: t)) (by omega) (by omega)]

/-! ### The record list as a single pass over the fragments -/

theorem filterMap_congr_mem {α β : Type} {l : List α} {f g : α → Option β}
    (h : ∀ a ∈ l, f a = g a) : l.filterMap f = l.filterMap g := by
  induction l with
  | nil => rfl
  | cons a l ih =>
    rw [List.filterMap_cons, List.filterMap_cons, h a (List.mem_cons_self a l),
      ih (fun x hx => h x (List.mem_cons_of_mem a hx))]

theorem suffixRecords_split (fl : List (Nat × List Nat)) (a : Nat) (t : List Nat) :
    ∀ l : List (Nat × List Nat),
      (∀ p ∈ l, p.2 <:+ a :: t → p.2 ≠ a :: t → p.2 <:+ LNS fl t) →
      (l.filterMap (fun p => if p.2 <:+ a :: t then some (p.1, p.2.length) else none)).Perm
        ((l.filterMap (fun p => if p.2 = a :: t then some (p.1, (a :: t).length) else none)) ++
         (l.filterMap (fun p => if p.2 <:+ LNS fl t then some (p.1, p.2.length) else none))) := by
  intro l
  induction l with
  | nil => intro _; simp
  | cons p l ih =>
    intro h
    have hl : ∀ q ∈ l, q.2 <:+ a :: t → q.2 ≠ a :: t → q.2 <:+ LNS fl t :=
      fun q hq => h q (List.mem_cons_of_mem p hq)
    by_cases he : p.2 = a :: t
    · have hs : p.2 <:+ a :: t := by rw [he]
      have hns : ¬ p.2 <:+ LNS fl t := by
        intro hcon
        have h1 : (a :: t).length ≤ (LNS fl t).length := by
          rw [← he]; exact hcon.length_le
        have h2 : (LNS fl t).length ≤ t.length := LNS_length_le fl t
        simp only [List.length_cons] at h1
        omega
      rw [List.filterMap_cons, List.filterMap_cons, List.filterMap_cons]
      rw [if_pos hs, if_pos he, if_neg hns]
      have hv : ((p.1, p.2.length) : Nat × Nat) = (p.1, (a :: t).length) := by rw [he]
      rw [hv]
      exact (ih hl).cons _
    · by_cases hs : p.2 <:+ a :: t
      · have hsf : p.2 <:+ LNS fl t := h p (List.mem_cons_self p l) hs he
        rw [List.filterMap_cons, List.filterMap_cons, List.filterMap_cons]
        rw [if_pos hs, if_neg he, if_pos hsf]
        exact ((ih hl).cons _).trans List.perm_middle.symm
      · have hns : ¬ p.2 <:+ LNS fl t := by
          intro hcon
          exact hs ((hcon.trans (LNS_suffix fl t)).trans (List.suffix_cons a t))
        rw [List.filterMap_cons, List.filterMap_cons, List.filterMap_cons]
        rw [if_neg hs, if_neg he, if_neg hns]
        exact ih hl

theorem closedResults_perm_aux (fl : List (Nat × List Nat)) :
    ∀ m : Nat, ∀ w : List Nat, w.length ≤ m →
      (closedResults fl w).Perm (suffixRecords fl w) := by
  intro m
  induction m with
  | zero =>
    intro w hm
    have hw : w = [] := by
      cases w with
      | nil => rfl
      | cons a t => simp at hm
    subst hw
    rw [closedResults_nil]
    have : suffixRecords fl [] = ownResults fl [] := by
      apply filterMap_congr_mem
      intro p _
      by_cases h : p.2 = ([] : List Nat)
      · rw [if_pos h, if_pos (List.suffix_nil.mpr h)]
        rw [h]
      · rw [if_neg h, if_neg (fun hc => h (List.suffix_nil.mp hc))]
    rw [this]
  | succ m ih =>
    intro w hm
    cases w with
    | nil =>
      rw [closedResults_nil]
      have : suffixRecords fl [] = ownResults fl [] := by
        apply filterMap_congr_mem
        intro p _
        by_cases h : p.2 = ([] : List Nat)
        · rw [if_pos h, if_pos (List.suffix_nil.mpr h)]
          rw [h]
        · rw [if_neg h, if_neg (fun hc => h (List.suffix_nil.mp hc))]
      rw [this]
    | cons a t =>
      rw [closedResults_cons]
      have hfb : fallbackOf fl (a :: t) = LNS fl t := rfl
      have hlen : (LNS fl t).length ≤ m := by
        have := LNS_length_le fl t
        simp only [List.length_cons] at hm
        omega
      have h1 : (closedResults fl (fallbackOf fl (a :: t))).Perm
          (suffixRecords fl (LNS fl t)) := by
        rw [hfb]; exact ih (LNS fl t) hlen
      have h2 : (suffixRecords fl (a :: t)).Perm
          (ownResults fl (a :: t) ++ suffixRecords fl (LNS fl t)) := by
        have hsplit := suffixRecords_split fl a t fl (fun p _ hs hne => by
          rcases List.suffix_cons_iff.mp hs with h | h
          · exact absurd h hne
          · exact LNS_max h (mem_fl_isNode (by assumption)))
        exact hsplit
      exact ((h1.append_left (ownResults fl (a :: t))).trans h2.symm)

theorem closedResults_perm (fl : List (Nat × List Nat)) (w : List Nat) :
    (closedResults fl w).Perm (suffixRecords fl w) :=
  closedResults_perm_aux fl w.length w (Nat.le_refl _)

theorem suffixRecords_LNS (fl : List (Nat × List Nat)) (w : List Nat) :
    suffixRecords fl (LNS fl w) = suffixRecords fl w := by
  apply filterMap_congr_mem
  intro p hp
  by_cases h : p.2 <:+ w
  · rw [if_pos h, if_pos (LNS_max h (mem_fl_isNode hp))]
  · rw [if_neg h, if_neg (fun hh => h (hh.trans (LNS_suffix fl w)))]

/-! ### Membership and counting in the fragment list -/

theorem mem_withIds {fs : List (List Nat)} :
    ∀ {b : Nat} {q : Nat × List Nat},
      q ∈ withIds b fs ↔ (b ≤ q.1 ∧ q.1 - b < fs.length ∧ q.2 = nth fs (q.1 - b) []) := by
  induction fs with
  | nil => intro b q; simp [withIds]
  | cons f fs ih =>
    intro b q
    constructor
    · intro h
      rcases List.mem_cons.mp h with h | h
      · subst h
        refine ⟨Nat.le_refl _, by simp, ?_⟩
        simp [nth]
      · rcases ih.mp h with ⟨h1, h2, h3⟩
        have hb : b + 1 ≤ q.1 := h1
        refine ⟨by omega, by simp only [List.length_cons]; omega, ?_⟩
        have he : q.1 - b = (q.1 - (b + 1)) + 1 := by omega
        rw [he]
        simpa [nth] using h3
    · rintro ⟨h1, h2, h3⟩
      by_cases hb : q.1 = b
      · have hq : q = (b, f) := by
          have : q.2 = f := by
            rw [hb] at h3
            simpa [nth] using h3
          cases q
          simp_all
        rw [hq]
        exact List.mem_cons_self _ _
      · apply List.mem_cons_of_mem
        apply ih.mpr
        have hb2 : b + 1 ≤ q.1 := by omega
        refine ⟨hb2, by simp only [List.length_cons] at h2; omega, ?_⟩
        have he : q.1 - b = (q.1 - (b + 1)) + 1 := by omega
        rw [he] at h3
        simpa [nth] using h3

theorem nth_map_of_lt {α β : Type} (f : α → β) (l : List α) (k : Nat) (d : α) (d2 : β)
    (h : k < l.length) : nth (l.map f) k d2 = f (nth l k d) := by
  simp [nth, List.getElem?_map, List.getElem?_eq_getElem h]

theorem nth_mem_of_lt {α : Type} {l : List α} {k : Nat} (d : α) (h : k < l.length) :
    nth l k d ∈ l := by
  rw [nth_of_lt d h]
  exact List.getElem_mem h

theorem mem_idFrags {pat : Pattern} {q : Nat × List Nat} :
    q ∈ idFrags pat ↔
      ((q.1 < pat.parts.length ∧ q.2 = (nth pat.parts q.1 ⟨0, []⟩).chars) ∨
       (pat.parts.length ≤ q.1 ∧ q.1 - pat.parts.length < pat.complement.length ∧
         q.2 = [(nth pat.complement (q.1 - pat.parts.length) ⟨0, 0⟩).ch])) := by
  unfold idFrags
  rw [List.mem_append, mem_withIds, mem_withIds]
  constructor
  · rintro (⟨h1, h2, h3⟩ | ⟨h1, h2, h3⟩)
    · left
      rw [List.length_map] at h2
      simp only [Nat.sub_zero] at h2 h3
      refine ⟨h2, ?_⟩
      rw [h3]
      exact nth_map_of_lt (fun p => p.chars) pat.parts q.1 ⟨0, []⟩ [] h2
    · right
      rw [List.length_map] at h2
      refine ⟨h1, h2, ?_⟩
      rw [h3]
      exact nth_map_of_lt (fun c => [c.ch]) pat.complement (q.1 - pat.parts.length) ⟨0, 0⟩ [] h2
  · rintro (⟨h1, h2⟩ | ⟨h1, h2, h3⟩)
    · left
      refine ⟨Nat.zero_le _, ?_, ?_⟩
      · rw [List.length_map]
        simpa using h1
      · simp only [Nat.sub_zero]
        rw [h2]
        exact (nth_map_of_lt (fun p => p.chars) pat.parts q.1 ⟨0, []⟩ [] h1).symm
    · right
      refine ⟨h1, ?_, ?_⟩
      · rw [List.length_map]
        exact h2
      · rw [h3]
        exact (nth_map_of_lt (fun c => [c.ch]) pat.complement (q.1 - pat.parts.length)
          ⟨0, 0⟩ [] h2).symm

theorem countP_range_nth {α : Type} (d : α) (Q : α → Bool) :
    ∀ l : List α, (List.range l.length).countP (fun k => Q (nth l k d)) = l.countP Q := by
  intro l
  induction l with
  | nil => rfl
  | cons a l ih =>
    show (List.range (l.length + 1)).countP _ = _
    rw [List.range_succ_eq_map, List.countP_cons, List.countP_map]
    have he : ((fun k => Q (nth (a :: l) k d)) ∘ Nat.succ) = (fun k => Q (nth l k d)) := by
      funext k
      simp [nth]
    rw [he, ih, List.countP_cons]
    have h0 : nth (a :: l) 0 d = a := by simp [nth]
    rw [h0]

theorem countP_split {α : Type} (P Q R : α → Bool) :
    ∀ l : List α, (∀ a ∈ l, P a = (Q a || R a)) →
      (∀ a ∈ l, ¬(Q a = true ∧ R a = true)) →
      l.countP P = l.countP Q + l.countP R := by
  intro l
  induction l with
  | nil => intro _ _; rfl
  | cons a l ih =>
    intro h1 h2
    rw [List.countP_cons, List.countP_cons, List.countP_cons,
      ih (fun x hx => h1 x (List.mem_cons_of_mem a hx))
        (fun x hx => h2 x (List.mem_cons_of_mem a hx)),
      h1 a (List.mem_cons_self a l)]
    have e1 : (if (Q a || R a) = true then 1 else 0) =
        (if Q a = true then 1 else 0) + (if R a = true then 1 else 0) := by
      by_cases hq : Q a = true
      · have hr : R a = false := by
          cases hR : R a
          · rfl
          · exact absurd ⟨hq, hR⟩ (h2 a (List.mem_cons_self a l))
        rw [hq, hr]
        rfl
      · have hq2 : Q a = false := by
          cases hQ : Q a
          · rfl
          · exact absurd hQ hq
        rw [hq2]
        cases hR : R a <;> rfl
    rw [e1]
    omega

theorem countP_withIds (g : Nat × List Nat → Bool) :
    ∀ (fs : List (List Nat)) (b : Nat),
      (withIds b fs).countP g =
        (List.range fs.length).countP (fun k => g (b + k, nth fs k [])) := by
  intro fs
  induction fs with
  | nil => intro b; rfl
  | cons f fs ih =>
    intro b
    show ((b, f) :: withIds (b + 1) fs).countP g = (List.range (fs.length + 1)).countP _
    rw [List.countP_cons, ih (b + 1), List.range_succ_eq_map, List.countP_cons,
      List.countP_map]
    have he : ((fun k => g (b + k, nth (f :: fs) k [])) ∘ Nat.succ) =
        (fun k => g (b + 1 + k, nth fs k [])) := by
      funext k
      have h1 : b + (k + 1) = b + 1 + k := by omega
      have h2 : nth (f :: fs) (k + 1) [] = nth fs k [] := by simp [nth]
      simp only [Function.comp_apply, Nat.succ_eq_add_one, h1, h2]
    rw [he]
    have h0 : g (b + 0, nth (f :: fs) 0 []) = g (b, f) := by
      simp [nth]
    rw [h0]

theorem countP_suffixRecords (pat : Pattern) (u : List Nat) (P : Nat × Nat → Bool) :
    (suffixRecords (idFrags pat) u).countP P =
      (List.range pat.parts.length).countP
        (fun j => if (nth pat.parts j ⟨0, []⟩).chars <:+ u
                  then P (j, (nth pat.parts j ⟨0, []⟩).chars.length) else false) +
      (List.range pat.complement.length).countP
        (fun k => if [(nth pat.complement k ⟨0, 0⟩).ch] <:+ u
                  then P (pat.parts.length + k, 1) else false) := by
  unfold suffixRecords idFrags
  rw [List.filterMap_append, List.countP_append, List.countP_filterMap,
    List.countP_filterMap]
  have hg : ∀ (q : Nat × List Nat),
      (Option.map P (if q.2 <:+ u then some (q.1, q.2.length) else none)).getD false =
        (if q.2 <:+ u then P (q.1, q.2.length) else false) := by
    intro q
    by_cases h : q.2 <:+ u
    · rw [if_pos h, if_pos h]
      rfl
    · rw [if_neg h, if_neg h]
      rfl
  have e1 : (fun q : Nat × List Nat =>
      (Option.map P (if q.2 <:+ u then some (q.1, q.2.length) else none)).getD false) =
      (fun q : Nat × List Nat => if q.2 <:+ u then P (q.1, q.2.length) else false) := by
    funext q
    exact hg q
  rw [e1, countP_withIds, countP_withIds]
  simp only [List.length_map]
  congr 1
  · apply List.countP_congr
    intro j hj
    rw [List.mem_range] at hj
    have hm : nth (pat.parts.map fun p => p.chars) j [] = (nth pat.parts j ⟨0, []⟩).chars :=
      nth_map_of_lt (fun p => p.chars) pat.parts j ⟨0, []⟩ [] hj
    simp only [Nat.zero_add, hm]
  · apply List.countP_congr
    intro k hk
    rw [List.mem_range] at hk
    have hm : nth (pat.complement.map fun c => [c.ch]) k [] =
        [(nth pat.complement k ⟨0, 0⟩).ch] :=
      nth_map_of_lt (fun c => [c.ch]) pat.complement k ⟨0, 0⟩ [] hk
    simp only [hm, List.length_singleton]

/-! ### Effect of processing a record list on the circular arrays -/

theorem procRecord_cases (pat : Pattern) (n i sh : Nat) (a : List Nat × List Bool)
    (r : Nat × Nat) :
    procRecord pat n i sh a r =
      if i < recTotalOff pat r then a
      else if n < i - recTotalOff pat r + pat.length then a
      else if pat.parts.length ≤ r.1 then (a.1, a.2.set (slotOf pat sh r) true)
      else if nth a.2 (slotOf pat sh r) false then a
      else (a.1.set (slotOf pat sh r) (nth a.1 (slotOf pat sh r) 0 + 1), a.2) := rfl

theorem procRecords_nil (pat : Pattern) (n i sh : Nat) (a : List Nat × List Bool) :
    procRecords pat n i sh [] a = a := rfl

theorem procRecords_cons (pat : Pattern) (n i sh : Nat) (r : Nat × Nat)
    (rs : List (Nat × Nat)) (a : List Nat × List Bool) :
    procRecords pat n i sh (r :: rs) a =
      procRecords pat n i sh rs (procRecord pat n i sh a r) := rfl

theorem procRecord_len (pat : Pattern) (n i sh : Nat) (a : List Nat × List Bool)
    (r : Nat × Nat) :
    (procRecord pat n i sh a r).1.length = a.1.length ∧
      (procRecord pat n i sh a r).2.length = a.2.length := by
  rw [procRecord_cases]
  by_cases h1 : i < recTotalOff pat r
  · rw [if_pos h1]; exact ⟨rfl, rfl⟩
  · rw [if_neg h1]
    by_cases h2 : n < i - recTotalOff pat r + pat.length
    · rw [if_pos h2]; exact ⟨rfl, rfl⟩
    · rw [if_neg h2]
      by_cases h3 : pat.parts.length ≤ r.1
      · rw [if_pos h3]
        exact ⟨rfl, by simp⟩
      · rw [if_neg h3]
        by_cases h4 : nth a.2 (slotOf pat sh r) false
        · rw [if_pos h4]; exact ⟨rfl, rfl⟩
        · rw [if_neg h4]
          exact ⟨by simp, rfl⟩

theorem procRecords_len (pat : Pattern) (n i sh : Nat) :
    ∀ (rs : List (Nat × Nat)) (a : List Nat × List Bool),
      (procRecords pat n i sh rs a).1.length = a.1.length ∧
        (procRecords pat n i sh rs a).2.length = a.2.length := by
  intro rs
  induction rs with
  | nil => intro a; exact ⟨rfl, rfl⟩
  | cons r rs ih =>
    intro a
    rw [procRecords_cons]
    rcases ih (procRecord pat n i sh a r) with ⟨e1, e2⟩
    rcases procRecord_len pat n i sh a r with ⟨f1, f2⟩
    exact ⟨e1.trans f1, e2.trans f2⟩

theorem slotOf_lt (pat : Pattern) (sh : Nat) (r : Nat × Nat) (hL : 0 < pat.length) :
    slotOf pat sh r < pat.length :=
  Nat.mod_lt _ hL

theorem procRecords_dis (pat : Pattern) (n i sh : Nat) (hL : 0 < pat.length) :
    ∀ (rs : List (Nat × Nat)) (a : List Nat × List Bool) (k : Nat),
      a.2.length = pat.length → k < pat.length →
      nth (procRecords pat n i sh rs a).2 k false =
        (nth a.2 k false ||
          rs.any (fun r => decide (tgtC pat n i r ∧ slotOf pat sh r = k))) := by
  intro rs
  induction rs with
  | nil =>
    intro a k _ _
    simp [procRecords_nil]
  | cons r rs ih =>
    intro a k hlen hk
    rw [procRecords_cons, List.any_cons]
    have hstep := procRecord_len pat n i sh a r
    rw [procRecord_cases]
    by_cases h1 : i < recTotalOff pat r
    · rw [if_pos h1, ih a k hlen hk]
      have hf : decide (tgtC pat n i r ∧ slotOf pat sh r = k) = false :=
        decide_eq_false (fun hcon => absurd hcon.1.2.1 (by omega))
      rw [hf, Bool.false_or]
    · rw [if_neg h1]
      by_cases h2 : n < i - recTotalOff pat r + pat.length
      · rw [if_pos h2, ih a k hlen hk]
        have hf : decide (tgtC pat n i r ∧ slotOf pat sh r = k) = false :=
          decide_eq_false (fun hcon => absurd hcon.1.2.2 (by omega))
        rw [hf, Bool.false_or]
      · rw [if_neg h2]
        by_cases h3 : pat.parts.length ≤ r.1
        · rw [if_pos h3]
          have hlen2 : (a.2.set (slotOf pat sh r) true).length = pat.length := by
            simpa using hlen
          rw [ih (a.1, a.2.set (slotOf pat sh r) true) k hlen2 hk]
          by_cases hk2 : slotOf pat sh r = k
          · have hset : nth (a.2.set (slotOf pat sh r) true) k false = true := by
              rw [hk2]
              exact nth_set_self true false (by rw [hlen]; exact hk)
            have ht : decide (tgtC pat n i r ∧ slotOf pat sh r = k) = true :=
              decide_eq_true ⟨⟨h3, by omega, by omega⟩, hk2⟩
            rw [hset, ht]
            simp
          · have hset : nth (a.2.set (slotOf pat sh r) true) k false = nth a.2 k false :=
              nth_set_ne true false hk2
            have hf : decide (tgtC pat n i r ∧ slotOf pat sh r = k) = false :=
              decide_eq_false (fun hcon => hk2 hcon.2)
            rw [hset, hf, Bool.false_or]
        · rw [if_neg h3]
          have hf : decide (tgtC pat n i r ∧ slotOf pat sh r = k) = false :=
            decide_eq_false (fun hcon => absurd hcon.1.1 h3)
          by_cases h4 : nth a.2 (slotOf pat sh r) false
          · rw [if_pos h4, ih a k hlen hk, hf, Bool.false_or]
          · rw [if_neg h4]
            rw [ih (a.1.set (slotOf pat sh r) (nth a.1 (slotOf pat sh r) 0 + 1), a.2) k
              hlen hk]
            rw [hf, Bool.false_or]

theorem procRecords_pm (pat : Pattern) (n i sh : Nat) (hL : 0 < pat.length) :
    ∀ (rs : List (Nat × Nat)) (a : List Nat × List Bool) (k : Nat),
      a.1.length = pat.length → a.2.length = pat.length → k < pat.length →
      (∀ r ∈ rs, ¬(tgtC pat n i r ∧ slotOf pat sh r = k)) →
      (nth (procRecords pat n i sh rs a).1 k 0 =
         nth a.1 k 0 +
           (if nth a.2 k false then 0
            else rs.countP (fun r => decide (tgtL pat n i r ∧ slotOf pat sh r = k))) ∧
       nth (procRecords pat n i sh rs a).2 k false = nth a.2 k false) := by
  intro rs
  induction rs with
  | nil =>
    intro a k _ _ _ _
    refine ⟨?_, rfl⟩
    rw [procRecords_nil]
    by_cases h : nth a.2 k false <;> simp [h]
  | cons r rs ih =>
    intro a k hl1 hl2 hk hnoC
    rw [procRecords_cons, List.countP_cons]
    have hnoC2 : ∀ q ∈ rs, ¬(tgtC pat n i q ∧ slotOf pat sh q = k) :=
      fun q hq => hnoC q (List.mem_cons_of_mem r hq)
    rw [procRecord_cases]
    by_cases h1 : i < recTotalOff pat r
    · rw [if_pos h1]
      have hf : decide (tgtL pat n i r ∧ slotOf pat sh r = k) = false :=
        decide_eq_false (fun hcon => absurd hcon.1.2.1 (by omega))
      rw [hf]
      rcases ih a k hl1 hl2 hk hnoC2 with ⟨e1, e2⟩
      exact ⟨by rw [e1]; simp, e2⟩
    · rw [if_neg h1]
      by_cases h2 : n < i - recTotalOff pat r + pat.length
      · rw [if_pos h2]
        have hf : decide (tgtL pat n i r ∧ slotOf pat sh r = k) = false :=
          decide_eq_false (fun hcon => absurd hcon.1.2.2 (by omega))
        rw [hf]
        rcases ih a k hl1 hl2 hk hnoC2 with ⟨e1, e2⟩
        exact ⟨by rw [e1]; simp, e2⟩
      · rw [if_neg h2]
        by_cases h3 : pat.parts.length ≤ r.1
        · rw [if_pos h3]
          have hne : slotOf pat sh r ≠ k := by
            intro hcon
            exact hnoC r (List.mem_cons_self r rs) ⟨⟨h3, by omega, by omega⟩, hcon⟩
          have hlen2 : (a.2.set (slotOf pat sh r) true).length = pat.length := by
            simpa using hl2
          rcases ih (a.1, a.2.set (slotOf pat sh r) true) k hl1 hlen2 hk hnoC2 with ⟨e1, e2⟩
          have hset : nth (a.2.set (slotOf pat sh r) true) k false = nth a.2 k false :=
            nth_set_ne true false hne
          have hf : decide (tgtL pat n i r ∧ slotOf pat sh r = k) = false :=
            decide_eq_false (fun hcon => absurd hcon.1.1 (by omega))
          refine ⟨?_, by rw [e2, hset]⟩
          rw [e1, hset, hf]
          simp
        · rw [if_neg h3]
          by_cases h4 : nth a.2 (slotOf pat sh r) false
          · rw [if_pos h4]
            rcases ih a k hl1 hl2 hk hnoC2 with ⟨e1, e2⟩
            refine ⟨?_, e2⟩
            rw [e1]
            by_cases hk2 : slotOf pat sh r = k
            · rw [← hk2, h4]
              simp
            · have hf : decide (tgtL pat n i r ∧ slotOf pat sh r = k) = false :=
                decide_eq_false (fun hcon => hk2 hcon.2)
              rw [hf]
              simp
          · rw [if_neg h4]
            rcases ih (a.1.set (slotOf pat sh r) (nth a.1 (slotOf pat sh r) 0 + 1), a.2) k
              (by simpa using hl1) hl2 hk hnoC2 with ⟨e1, e2⟩
            by_cases hk2 : slotOf pat sh r = k
            · have hset : nth (a.1.set (slotOf pat sh r) (nth a.1 (slotOf pat sh r) 0 + 1)) k 0 =
                  nth a.1 k 0 + 1 := by
                rw [hk2]
                exact nth_set_self _ 0 (by rw [hl1]; exact hk)
              have hdk : nth a.2 k false = false := by
                rw [← hk2]
                simpa using h4
              have ht : decide (tgtL pat n i r ∧ slotOf pat sh r = k) = true :=
                decide_eq_true ⟨⟨by omega, by omega, by omega⟩, hk2⟩
              refine ⟨?_, by rw [e2]⟩
              rw [e1, hset, hdk, ht]
              simp
              omega
            · have hset : nth (a.1.set (slotOf pat sh r) (nth a.1 (slotOf pat sh r) 0 + 1)) k 0 =
                  nth a.1 k 0 :=
                nth_set_ne _ 0 hk2
              have hf : decide (tgtL pat n i r ∧ slotOf pat sh r = k) = false :=
                decide_eq_false (fun hcon => hk2 hcon.2)
              refine ⟨?_, by rw [e2]⟩
              rw [e1, hset, hf]
              simp

/-! ### Modular arithmetic of the circular buffer -/

theorem succ_shift_eq (L i : Nat) (hL : 0 < L) :
    (if i % L + 1 = L then 0 else i % L + 1) = (i + 1) % L := by
  have hm : i % L < L := Nat.mod_lt _ hL
  have hdiv : L * (i / L) + i % L = i := Nat.div_add_mod i L
  by_cases h : i % L + 1 = L
  · rw [if_pos h]
    have e2 : i + 1 = L * (i / L) + L := by omega
    rw [e2, ← Nat.mul_succ, Nat.mul_mod_right]
  · rw [if_neg h]
    have e2 : i + 1 = L * (i / L) + (i % L + 1) := by omega
    rw [e2, Nat.mul_add_mod]
    exact (Nat.mod_eq_of_lt (by omega)).symm

theorem add_mod_swallow (a i L : Nat) : (a + i % L) % L = (a + i) % L := by
  conv_rhs => rw [Nat.add_mod]
  conv_lhs => rw [Nat.add_mod]
  rw [Nat.mod_mod]

theorem slot_eq_start_mod {L sh toff i : Nat} (ht : toff < L) (hti : toff ≤ i)
    (hsh : sh = i % L) : (L + sh - toff) % L = (i - toff) % L := by
  subst hsh
  have e1 : L + i % L - toff = (L - toff) + i % L := by omega
  rw [e1, add_mod_swallow]
  have e2 : (L - toff) + i = (i - toff) + L := by omega
  rw [e2, Nat.add_mod_right]

theorem window_mod_inj {L s1 s2 i : Nat} (h1a : s1 ≤ i) (h1b : i < s1 + L)
    (h2a : s2 ≤ i) (h2b : i < s2 + L) (hmod : s1 % L = s2 % L) : s1 = s2 := by
  rcases Nat.le_total s1 s2 with h | h
  · have hd : L ∣ s2 - s1 := (Nat.modEq_iff_dvd' h).mp hmod
    have hz : s2 - s1 = 0 := Nat.eq_zero_of_dvd_of_lt hd (by omega)
    omega
  · have hd : L ∣ s1 - s2 := (Nat.modEq_iff_dvd' h).mp hmod.symm
    have hz : s1 - s2 = 0 := Nat.eq_zero_of_dvd_of_lt hd (by omega)
    omega

theorem sub_len_mod (L a : Nat) (h : L ≤ a) : (a - L) % L = a % L := by
  have e : a = (a - L) + L := by omega
  conv_rhs => rw [e]
  rw [Nat.add_mod_right]

/-! ### Suffixes of text prefixes as substrings -/

theorem suffix_take_iff {t w : List Nat} {m : Nat} (hm : m ≤ t.length) :
    w <:+ t.take m ↔ (w.length ≤ m ∧ (t.drop (m - w.length)).take w.length = w) := by
  have hlen : (t.take m).length = m := by
    rw [List.length_take]
    omega
  constructor
  · intro h
    have h1 : w.length ≤ m := by
      have h2 := h.length_le
      rw [hlen] at h2
      exact h2
    refine ⟨h1, ?_⟩
    have h2 := List.suffix_iff_eq_drop.mp h
    rw [hlen, List.drop_take] at h2
    have e : m - (m - w.length) = w.length := by omega
    rw [e] at h2
    exact h2.symm
  · rintro ⟨h1, h2⟩
    apply List.suffix_iff_eq_drop.mpr
    rw [hlen, List.drop_take]
    have e : m - (m - w.length) = w.length := by omega
    rw [e]
    exact h2.symm

theorem take_one_drop (t : List Nat) (i : Nat) (hi : i < t.length) :
    (t.drop i).take 1 = [nth t i 0] := by
  rw [List.drop_eq_getElem_cons hi, nth_of_lt 0 hi]
  rfl

theorem singleton_suffix_take {t : List Nat} {i x : Nat} (hi : i < t.length) :
    [x] <:+ t.take (i + 1) ↔ nth t i 0 = x := by
  rw [suffix_take_iff (by omega)]
  simp only [List.length_singleton]
  have e : i + 1 - 1 = i := by omega
  rw [e, take_one_drop t i hi]
  constructor
  · rintro ⟨h1, h2⟩
    simpa using h2
  · intro h
    rw [h]
    exact ⟨by omega, rfl⟩

/-! ### Records of a well-formed pattern -/

theorem mem_suffixRecords {fl : List (Nat × List Nat)} {u : List Nat} {r : Nat × Nat} :
    r ∈ suffixRecords fl u ↔ ∃ p ∈ fl, p.2 <:+ u ∧ r = (p.1, p.2.length) := by
  unfold suffixRecords
  rw [List.mem_filterMap]
  constructor
  · rintro ⟨p, hp, hsome⟩
    by_cases h : p.2 <:+ u
    · rw [if_pos h] at hsome
      exact ⟨p, hp, h, (Option.some_inj.mp hsome).symm⟩
    · rw [if_neg h] at hsome
      cases hsome
  · rintro ⟨p, hp, h, rfl⟩
    exact ⟨p, hp, by rw [if_pos h]⟩

theorem frag_ne_nil {pat : Pattern} (hp : PatInv pat) {q : Nat × List Nat}
    (hq : q ∈ idFrags pat) : q.2 ≠ [] := by
  rcases mem_idFrags.mp hq with ⟨h1, h2⟩ | ⟨h1, h2, h3⟩
  · have hmem : nth pat.parts q.1 ⟨0, []⟩ ∈ pat.parts := nth_mem_of_lt ⟨0, []⟩ h1
    have hpos := (hp.2.1 _ hmem).1
    rw [h2]
    intro hcon
    rw [hcon] at hpos
    simp at hpos
  · rw [h3]
    simp

theorem recTotalOff_lt {pat : Pattern} (hp : PatInv pat) {q : Nat × List Nat}
    (hq : q ∈ idFrags pat) : recTotalOff pat (q.1, q.2.length) < pat.length := by
  rcases mem_idFrags.mp hq with ⟨h1, h2⟩ | ⟨h1, h2, h3⟩
  · have hmem : nth pat.parts q.1 ⟨0, []⟩ ∈ pat.parts := nth_mem_of_lt ⟨0, []⟩ h1
    rcases hp.2.1 _ hmem with ⟨hpos, hfit⟩
    unfold recTotalOff
    rw [if_neg (by omega)]
    rw [h2]
    simp only []
    omega
  · unfold recTotalOff
    rw [if_pos h1]
    exact hp.2.2.1 _ (nth_mem_of_lt ⟨0, 0⟩ h2)

/-! ### Bridging record counts to static text conditions -/

theorem perm_any_eq {α : Type} {l1 l2 : List α} (h : l1.Perm l2) (f : α → Bool) :
    l1.any f = l2.any f := by
  cases h1 : l1.any f with
  | true =>
    rcases List.any_eq_true.mp h1 with ⟨x, hx, hfx⟩
    exact (List.any_eq_true.mpr ⟨x, h.mem_iff.mp hx, hfx⟩).symm
  | false =>
    cases h2 : l2.any f with
    | false => rfl
    | true =>
      rcases List.any_eq_true.mp h2 with ⟨x, hx, hfx⟩
      have := List.any_eq_true.mpr ⟨x, h.mem_iff.mpr hx, hfx⟩
      rw [h1] at this
      cases this

theorem suffixRecords_nil_inv {pat : Pattern} (hp : PatInv pat) :
    suffixRecords (idFrags pat) [] = [] := by
  unfold suffixRecords
  rw [List.filterMap_eq_nil_iff]
  intro p hpmem
  rw [if_neg (fun hcon => frag_ne_nil hp hpmem (List.suffix_nil.mp hcon))]

theorem nth_complement_toff {pat : Pattern} {j : Nat} (hj : pat.parts.length ≤ j) :
    recTotalOff pat (j, 1) =
      (nth pat.complement (j - pat.parts.length) ⟨0, 0⟩).index := by
  unfold recTotalOff
  rw [if_pos hj]

theorem nth_part_toff {pat : Pattern} {j l : Nat} (hj : j < pat.parts.length) :
    recTotalOff pat (j, l) = (nth pat.parts j ⟨0, []⟩).offset + l - 1 := by
  unfold recTotalOff
  rw [if_neg (by omega)]

theorem any_comp_bridge {pat : Pattern} {t : List Nat} (hp : PatInv pat) {i s : Nat}
    (hi : i < t.length) (hs : s ≤ i) (hw : i < s + pat.length) :
    (suffixRecords (idFrags pat) (t.take (i + 1))).any
        (fun r => decide (tgtC pat t.length i r ∧
          slotOf pat (i % pat.length) r = s % pat.length)) =
      decide (s + pat.length ≤ t.length ∧
        ∃ c ∈ pat.complement, s + c.index = i ∧ nth t i 0 = c.ch) := by
  have hL : 0 < pat.length := hp.1
  by_cases htgt : s + pat.length ≤ t.length ∧
      ∃ c ∈ pat.complement, s + c.index = i ∧ nth t i 0 = c.ch
  · rw [decide_eq_true htgt]
    rcases htgt with ⟨hn, c, hcmem, hci, hbyte⟩
    rcases List.mem_iff_getElem?.mp hcmem with ⟨k, hk⟩
    rcases List.getElem?_eq_some_iff.mp hk with ⟨hklt, hkval⟩
    have hnthc : nth pat.complement k ⟨0, 0⟩ = c := by
      rw [nth_of_lt ⟨0, 0⟩ hklt, hkval]
    apply List.any_eq_true.mpr
    refine ⟨(pat.parts.length + k, 1), ?_, ?_⟩
    · apply mem_suffixRecords.mpr
      refine ⟨(pat.parts.length + k, [c.ch]), ?_, ?_, rfl⟩
      · apply mem_idFrags.mpr
        right
        have he : pat.parts.length + k - pat.parts.length = k := by omega
        refine ⟨by omega, by omega, ?_⟩
        rw [he, hnthc]
      · exact (singleton_suffix_take hi).mpr hbyte
    · apply decide_eq_true
      have htoff : recTotalOff pat (pat.parts.length + k, 1) = c.index := by
        rw [nth_complement_toff (by omega)]
        have he : pat.parts.length + k - pat.parts.length = k := by omega
        rw [he, hnthc]
      have htlt : c.index < pat.length := hp.2.2.1 c hcmem
      refine ⟨⟨by omega, ?_, ?_⟩, ?_⟩
      · rw [htoff]; omega
      · rw [htoff]
        have : i - c.index = s := by omega
        rw [this]
        exact hn
      · unfold slotOf
        rw [htoff]
        rw [slot_eq_start_mod htlt (by omega) rfl]
        have : i - c.index = s := by omega
        rw [this]
  · rw [decide_eq_false htgt]
    cases hany : (suffixRecords (idFrags pat) (t.take (i + 1))).any
        (fun r => decide (tgtC pat t.length i r ∧
          slotOf pat (i % pat.length) r = s % pat.length)) with
    | false => rfl
    | true =>
      exfalso
      rcases List.any_eq_true.mp hany with ⟨r, hr, hfr⟩
      rcases (decide_eq_true_eq).mp hfr with ⟨⟨hcidx, htle, hguard⟩, hslot⟩
      rcases mem_suffixRecords.mp hr with ⟨p, hpfl, hsfx, hrv⟩
      rcases mem_idFrags.mp hpfl with ⟨h1, _⟩ | ⟨h1, h2, h3⟩
      · rw [hrv] at hcidx
        simp only [] at hcidx
        omega
      · have hc2 : p.2.length = 1 := by rw [h3]; rfl
        have hrv2 : r = (p.1, 1) := by rw [hrv, hc2]
        set cc := nth pat.complement (p.1 - pat.parts.length) ⟨0, 0⟩ with hcc
        have htoff : recTotalOff pat r = cc.index := by
          rw [hrv2, nth_complement_toff h1]
        have hccmem : cc ∈ pat.complement := nth_mem_of_lt ⟨0, 0⟩ h2
        have htlt : cc.index < pat.length := hp.2.2.1 cc hccmem
        have hbyte : nth t i 0 = cc.ch := by
          have := hsfx
          rw [h3] at this
          exact (singleton_suffix_take hi).mp this
        have hstart : i - recTotalOff pat r = s := by
          apply window_mod_inj (L := pat.length) (i := i) (by omega) (by rw [htoff]; omega)
            hs hw
          rw [← slot_eq_start_mod (by rw [htoff]; exact htlt) htle rfl]
          exact hslot
        apply htgt
        refine ⟨by omega, cc, hccmem, by omega, hbyte⟩

theorem countP_lit_bridge {pat : Pattern} {t : List Nat} (hp : PatInv pat) {i s : Nat}
    (hi : i < t.length) (hs : s ≤ i) (hw : i < s + pat.length)
    (hn : s + pat.length ≤ t.length) :
    (suffixRecords (idFrags pat) (t.take (i + 1))).countP
        (fun r => decide (tgtL pat t.length i r ∧
          slotOf pat (i % pat.length) r = s % pat.length)) =
      pat.parts.countP (fun p =>
        decide (s + p.offset + p.chars.length = i + 1) &&
          decide ((t.drop (s + p.offset)).take p.chars.length = p.chars)) := by
  have hL : 0 < pat.length := hp.1
  rw [countP_suffixRecords]
  have hzero : (List.range pat.complement.length).countP
      (fun k => if [(nth pat.complement k ⟨0, 0⟩).ch] <:+ t.take (i + 1)
                then decide (tgtL pat t.length i (pat.parts.length + k, 1) ∧
                  slotOf pat (i % pat.length) (pat.parts.length + k, 1) = s % pat.length)
                else false) = 0 := by
    apply List.countP_eq_zero.mpr
    intro k hk
    by_cases h : [(nth pat.complement k ⟨0, 0⟩).ch] <:+ t.take (i + 1)
    · rw [if_pos h]
      simp only [decide_eq_true_eq]
      intro hcon
      have h1 : pat.parts.length + k < pat.parts.length := hcon.1.1
      omega
    · rw [if_neg h]
      simp
  rw [hzero, Nat.add_zero]
  rw [← countP_range_nth (⟨0, []⟩ : PartInfo)
    (fun p => decide (s + p.offset + p.chars.length = i + 1) &&
      decide ((t.drop (s + p.offset)).take p.chars.length = p.chars)) pat.parts]
  apply List.countP_congr
  intro j hj
  rw [List.mem_range] at hj
  set p := nth pat.parts j ⟨0, []⟩ with hpj
  have hpmem : p ∈ pat.parts := nth_mem_of_lt ⟨0, []⟩ hj
  rcases hp.2.1 p hpmem with ⟨hpos, hfit⟩
  have htoff : recTotalOff pat (j, p.chars.length) = p.offset + p.chars.length - 1 :=
    nth_part_toff hj
  constructor
  · intro h
    by_cases hsfx : p.chars <:+ t.take (i + 1)
    · rw [if_pos hsfx] at h
      rcases (decide_eq_true_eq).mp h with ⟨⟨hjlt, htle, hguard⟩, hslot⟩
      have hstart : i - recTotalOff pat (j, p.chars.length) = s := by
        apply window_mod_inj (L := pat.length) (i := i) (by omega)
          (by rw [htoff]; omega) hs hw
        rw [← slot_eq_start_mod (by rw [htoff]; omega) htle rfl]
        exact hslot
      have hend : s + p.offset + p.chars.length = i + 1 := by
        rw [htoff] at hstart htle
        omega
      rcases (suffix_take_iff (by omega)).mp hsfx with ⟨hlen2, hsub⟩
      have he2 : i + 1 - p.chars.length = s + p.offset := by omega
      rw [he2] at hsub
      simp only [Bool.and_eq_true, decide_eq_true_eq]
      exact ⟨hend, hsub⟩
    · rw [if_neg hsfx] at h
      cases h
  · intro h
    simp only [Bool.and_eq_true, decide_eq_true_eq] at h
    rcases h with ⟨hend, hsub⟩
    have hsfx : p.chars <:+ t.take (i + 1) := by
      apply (suffix_take_iff (by omega)).mpr
      refine ⟨by omega, ?_⟩
      have he2 : i + 1 - p.chars.length = s + p.offset := by omega
      rw [he2]
      exact hsub
    rw [if_pos hsfx]
    apply decide_eq_true
    refine ⟨⟨hj, ?_, ?_⟩, ?_⟩
    · rw [htoff]; omega
    · rw [htoff]
      have : i - (p.offset + p.chars.length - 1) = s := by omega
      rw [this]
      exact hn
    · unfold slotOf
      rw [htoff, slot_eq_start_mod (by omega) (by omega) rfl]
      have : i - (p.offset + p.chars.length - 1) = s := by omega
      rw [this]

theorem countP_lit_bridge_zero {pat : Pattern} {t : List Nat} (hp : PatInv pat) {i s : Nat}
    (hi : i < t.length) (hs : s ≤ i) (hw : i < s + pat.length)
    (hn : ¬ s + pat.length ≤ t.length) :
    (suffixRecords (idFrags pat) (t.take (i + 1))).countP
        (fun r => decide (tgtL pat t.length i r ∧
          slotOf pat (i % pat.length) r = s % pat.length)) = 0 := by
  have hL : 0 < pat.length := hp.1
  apply List.countP_eq_zero.mpr
  intro r hr
  rcases mem_suffixRecords.mp hr with ⟨p, hpfl, hsfx, hrv⟩
  simp only [decide_eq_true_eq, not_and]
  intro htg hslot
  rcases htg with ⟨hjlt, htle, hguard⟩
  have htlt : recTotalOff pat r < pat.length := by
    rw [hrv]
    exact recTotalOff_lt hp hpfl
  have hstart : i - recTotalOff pat r = s := by
    apply window_mod_inj (L := pat.length) (i := i) (by omega) (by omega) hs hw
    rw [← slot_eq_start_mod htlt htle rfl]
    exact hslot
  omega

/-! ### Evolution of the per-candidate bookkeeping quantities -/

theorem CountM_succ {pat : Pattern} {t : List Nat} {s i : Nat} :
    CountM pat t s (i + 1) =
      CountM pat t s i +
        (if s + pat.length ≤ t.length then
          pat.parts.countP (fun p =>
            decide (s + p.offset + p.chars.length = i + 1) &&
              decide ((t.drop (s + p.offset)).take p.chars.length = p.chars)) else 0) := by
  unfold CountM
  by_cases hn : s + pat.length ≤ t.length
  · rw [if_pos hn, if_pos hn, if_pos hn]
    apply countP_split
    · intro p _
      unfold partHitB
      cases hS : decide ((t.drop (s + p.offset)).take p.chars.length = p.chars) with
      | false => simp [hS]
      | true =>
        simp only [hS, Bool.and_true]
        by_cases h1 : s + p.offset + p.chars.length ≤ i
        · rw [decide_eq_true (by omega : s + p.offset + p.chars.length ≤ i + 1),
            decide_eq_true h1]
          rfl
        · by_cases h2 : s + p.offset + p.chars.length = i + 1
          · rw [decide_eq_true (by omega : s + p.offset + p.chars.length ≤ i + 1),
              decide_eq_false h1, decide_eq_true h2]
            rfl
          · rw [decide_eq_false (by omega : ¬ s + p.offset + p.chars.length ≤ i + 1),
              decide_eq_false h1, decide_eq_false h2]
            rfl
    · intro p _
      unfold partHitB
      intro hcon
      rcases hcon with ⟨ha, hb⟩
      rw [Bool.and_eq_true] at ha hb
      rcases ha with ⟨ha1, _⟩
      rcases hb with ⟨hb1, _⟩
      rw [decide_eq_true_eq] at ha1 hb1
      omega
  · rw [if_neg hn, if_neg hn, if_neg hn]

theorem DisP_succ {pat : Pattern} {t : List Nat} {s i : Nat} :
    DisP pat t s (i + 1) ↔
      DisP pat t s i ∨
        (s + pat.length ≤ t.length ∧
          ∃ c ∈ pat.complement, s + c.index = i ∧ nth t i 0 = c.ch) := by
  unfold DisP
  constructor
  · rintro ⟨hn, c, hcm, hlt, hb⟩
    by_cases h : s + c.index < i
    · exact Or.inl ⟨hn, c, hcm, h, hb⟩
    · have he : s + c.index = i := by omega
      refine Or.inr ⟨hn, c, hcm, he, ?_⟩
      rw [← he]
      exact hb
  · rintro (⟨hn, c, hcm, hlt, hb⟩ | ⟨hn, c, hcm, he, hb⟩)
    · exact ⟨hn, c, hcm, by omega, hb⟩
    · refine ⟨hn, c, hcm, by omega, ?_⟩
      rw [he]
      exact hb

theorem DisP_self {pat : Pattern} {t : List Nat} {s : Nat} : ¬ DisP pat t s s := by
  rintro ⟨_, c, _, hlt, _⟩
  omega

theorem CountM_self {pat : Pattern} {t : List Nat} (hp : PatInv pat) {s : Nat} :
    CountM pat t s s = 0 := by
  unfold CountM
  by_cases hn : s + pat.length ≤ t.length
  · rw [if_pos hn]
    apply List.countP_eq_zero.mpr
    intro p hpmem
    unfold partHitB
    intro hcon
    rw [Bool.and_eq_true] at hcon
    rcases hcon with ⟨h1, _⟩
    rw [decide_eq_true_eq] at h1
    have := (hp.2.1 p hpmem).1
    omega
  · rw [if_neg hn]

/-! ### The emission test at a closing window -/

theorem close_dis_iff {pat : Pattern} {t : List Nat} (hp : PatInv pat) {i : Nat}
    (hi : i < t.length) (hL2 : pat.length ≤ i + 1) :
    DisP pat t (i + 1 - pat.length) (i + 1) ↔
      ¬ ((pat.complement.all
        (fun c => !(nth t ((i + 1 - pat.length) + c.index) 0 == c.ch))) = true) := by
  unfold DisP
  rw [List.all_eq_true]
  constructor
  · rintro ⟨hn, c, hcm, hlt, hb⟩
    intro hall
    have := hall c hcm
    rw [Bool.not_eq_true'] at this
    rw [beq_eq_false_iff_ne] at this
    exact this hb
  · intro hnall
    by_cases hex : ∃ c ∈ pat.complement, nth t ((i + 1 - pat.length) + c.index) 0 = c.ch
    · rcases hex with ⟨c, hcm, hb⟩
      have hidx : c.index < pat.length := hp.2.2.1 c hcm
      refine ⟨by omega, c, hcm, by omega, hb⟩
    · exfalso
      apply hnall
      intro c hcm
      rw [Bool.not_eq_true', beq_eq_false_iff_ne]
      intro hcon
      exact hex ⟨c, hcm, hcon⟩

theorem close_count_iff {pat : Pattern} {t : List Nat} (hp : PatInv pat) {i : Nat}
    (hi : i < t.length) (hL2 : pat.length ≤ i + 1) :
    (CountM pat t (i + 1 - pat.length) (i + 1) = pat.parts.length ↔
      (pat.parts.all (fun p =>
        decide ((t.drop ((i + 1 - pat.length) + p.offset)).take p.chars.length = p.chars))) =
        true) := by
  unfold CountM
  rw [if_pos (by omega)]
  rw [List.all_eq_true]
  constructor
  · intro hcnt
    have hall := List.countP_eq_length.mp hcnt
    intro p hpmem
    have := hall p hpmem
    unfold partHitB at this
    rw [Bool.and_eq_true] at this
    exact this.2
  · intro hall
    apply List.countP_eq_length.mpr
    intro p hpmem
    unfold partHitB
    rw [Bool.and_eq_true]
    rcases hp.2.1 p hpmem with ⟨_, hfit⟩
    refine ⟨decide_eq_true (by omega), hall p hpmem⟩

theorem filter_range_close {i L : Nat} (cond : Nat → Bool) (hL2 : L ≤ i + 1) :
    (List.range (i + 2 - L)).filter cond =
      (List.range (i + 1 - L)).filter cond ++
        (if cond (i + 1 - L) then [i + 1 - L] else []) := by
  have he : i + 2 - L = (i + 1 - L) + 1 := by omega
  rw [he, List.range_succ, List.filter_append]
  congr 1
  by_cases h : cond (i + 1 - L) = true
  · rw [if_pos h]
    simp [h]
  · rw [if_neg h]
    simp [h]

theorem filter_range_noclose {i L : Nat} (cond : Nat → Bool) (hL2 : ¬ L ≤ i + 1) :
    (List.range (i + 2 - L)).filter cond = (List.range (i + 1 - L)).filter cond := by
  have h1 : i + 2 - L = 0 := by omega
  have h2 : i + 1 - L = 0 := by omega
  rw [h1, h2]

/-! ### One scanner iteration preserves the loop invariant -/

theorem scanStep_cs_eq (pat : Pattern) (fl : List (Nat × List Nat)) (n : Nat) (st : ScanSt)
    (i c : Nat) : (scanStep pat fl n st i c).cs = (stepMatching fl st.cs c).2 := rfl

theorem scanStep_shift_eq (pat : Pattern) (fl : List (Nat × List Nat)) (n : Nat) (st : ScanSt)
    (i c : Nat) :
    (scanStep pat fl n st i c).shift =
      if st.shift + 1 = pat.length then 0 else st.shift + 1 := rfl

theorem scanStep_pm_eq (pat : Pattern) (fl : List (Nat × List Nat)) (n : Nat) (st : ScanSt)
    (i c : Nat) :
    (scanStep pat fl n st i c).pm =
      (if (stepMatching fl st.cs c).1 then
        procRecords pat n i st.shift (closedResults fl (stepMatching fl st.cs c).2)
          (st.pm.set st.shift 0, st.dis.set st.shift false)
      else (st.pm.set st.shift 0, st.dis.set st.shift false)).1 := rfl

theorem scanStep_dis_eq (pat : Pattern) (fl : List (Nat × List Nat)) (n : Nat) (st : ScanSt)
    (i c : Nat) :
    (scanStep pat fl n st i c).dis =
      (if (stepMatching fl st.cs c).1 then
        procRecords pat n i st.shift (closedResults fl (stepMatching fl st.cs c).2)
          (st.pm.set st.shift 0, st.dis.set st.shift false)
      else (st.pm.set st.shift 0, st.dis.set st.shift false)).2 := rfl

theorem scanStep_ms_eq (pat : Pattern) (fl : List (Nat × List Nat)) (n : Nat) (st : ScanSt)
    (i c : Nat) :
    (scanStep pat fl n st i c).ms =
      (if pat.length ≤ i + 1 &&
          !(nth (scanStep pat fl n st i c).dis (scanStep pat fl n st i c).shift false) &&
          (nth (scanStep pat fl n st i c).pm (scanStep pat fl n st i c).shift 0 ==
            pat.parts.length)
       then st.ms ++ [i + 1 - pat.length] else st.ms) := rfl

theorem scanStep_inv {pat : Pattern} {t : List Nat} (hp : PatInv pat) {i c : Nat}
    (hc : t[i]? = some c) {st : ScanSt} (h : ScanInv pat t i st) :
    ScanInv pat t (i + 1) (scanStep pat (idFrags pat) t.length st i c) := by
  obtain ⟨hi, hci⟩ := List.getElem?_eq_some_iff.mp hc
  have hL : 0 < pat.length := hp.1
  obtain ⟨hpm, hdis, hshift, hcs, hD, hP, hM⟩ := h
  have htake : t.take (i + 1) = t.take i ++ [c] := by
    rw [List.take_succ, hc]
    rfl
  have hnode : isNode (idFrags pat) st.cs = true := by
    rw [hcs]
    exact LNS_isNode (idFrags pat) (t.take i)
  have e2 : LNS (idFrags pat) (st.cs ++ [c]) = LNS (idFrags pat) (t.take (i + 1)) := by
    rw [hcs, LNS_snoc_LNS, htake]
  have hstep : stepMatching (idFrags pat) st.cs c =
      (!(LNS (idFrags pat) (t.take (i + 1))).isEmpty, LNS (idFrags pat) (t.take (i + 1))) := by
    rw [stepMatching_char c hnode, e2]
  have hs1 : (stepMatching (idFrags pat) st.cs c).1 =
      !(LNS (idFrags pat) (t.take (i + 1))).isEmpty := by rw [hstep]
  have hs2 : (stepMatching (idFrags pat) st.cs c).2 =
      LNS (idFrags pat) (t.take (i + 1)) := by rw [hstep]
  have ha : (if (stepMatching (idFrags pat) st.cs c).1 then
        procRecords pat t.length i st.shift
          (closedResults (idFrags pat) (stepMatching (idFrags pat) st.cs c).2)
          (st.pm.set st.shift 0, st.dis.set st.shift false)
      else (st.pm.set st.shift 0, st.dis.set st.shift false)) =
      procRecords pat t.length i st.shift
        (if (stepMatching (idFrags pat) st.cs c).1 then
          closedResults (idFrags pat) (stepMatching (idFrags pat) st.cs c).2
        else [])
        (st.pm.set st.shift 0, st.dis.set st.shift false) := by
    by_cases hb : (stepMatching (idFrags pat) st.cs c).1 = true
    · rw [if_pos hb, if_pos hb]
    · rw [if_neg hb, if_neg hb]
      rfl
  have hcount : ∀ P : Nat × Nat → Bool,
      (if (stepMatching (idFrags pat) st.cs c).1 then
        closedResults (idFrags pat) (stepMatching (idFrags pat) st.cs c).2
      else []).countP P =
        (suffixRecords (idFrags pat) (t.take (i + 1))).countP P := by
    intro P
    by_cases hune : (LNS (idFrags pat) (t.take (i + 1))).isEmpty = true
    · have hb : (stepMatching (idFrags pat) st.cs c).1 = false := by
        rw [hs1, hune]
        rfl
      rw [hb]
      simp only [Bool.false_eq_true, if_false]
      rw [← suffixRecords_LNS (idFrags pat) (t.take (i + 1)), List.isEmpty_iff.mp hune,
        suffixRecords_nil_inv hp]
    · have hb : (stepMatching (idFrags pat) st.cs c).1 = true := by
        rw [hs1]
        cases hv : (LNS (idFrags pat) (t.take (i + 1))).isEmpty
        · rfl
        · exact absurd hv hune
      rw [hb]
      simp only [if_true]
      rw [hs2]
      rw [(closedResults_perm (idFrags pat) (LNS (idFrags pat) (t.take (i + 1)))).countP_eq P]
      rw [suffixRecords_LNS]
  have hany : ∀ f : Nat × Nat → Bool,
      (if (stepMatching (idFrags pat) st.cs c).1 then
        closedResults (idFrags pat) (stepMatching (idFrags pat) st.cs c).2
      else []).any f =
        (suffixRecords (idFrags pat) (t.take (i + 1))).any f := by
    intro f
    by_cases hune : (LNS (idFrags pat) (t.take (i + 1))).isEmpty = true
    · have hb : (stepMatching (idFrags pat) st.cs c).1 = false := by
        rw [hs1, hune]
        rfl
      rw [hb]
      simp only [Bool.false_eq_true, if_false]
      rw [← suffixRecords_LNS (idFrags pat) (t.take (i + 1)), List.isEmpty_iff.mp hune,
        suffixRecords_nil_inv hp]
    · have hb : (stepMatching (idFrags pat) st.cs c).1 = true := by
        rw [hs1]
        cases hv : (LNS (idFrags pat) (t.take (i + 1))).isEmpty
        · rfl
        · exact absurd hv hune
      rw [hb]
      simp only [if_true]
      rw [hs2]
      rw [perm_any_eq (closedResults_perm (idFrags pat) (LNS (idFrags pat) (t.take (i + 1)))) f]
      rw [suffixRecords_LNS]
  have hlpm0 : (st.pm.set st.shift 0).length = pat.length := by
    rw [List.length_set]
    exact hpm
  have hldis0 : (st.dis.set st.shift false).length = pat.length := by
    rw [List.length_set]
    exact hdis
  have hdis2 : ∀ s, s < i + 1 → i + 1 ≤ s + pat.length →
      nth (scanStep pat (idFrags pat) t.length st i c).dis (s % pat.length) false =
        decide (DisP pat t s (i + 1)) := by
    intro s hs1b hs2b
    have hkd := procRecords_dis pat t.length i st.shift hL
      (if (stepMatching (idFrags pat) st.cs c).1 then
        closedResults (idFrags pat) (stepMatching (idFrags pat) st.cs c).2
      else [])
      (st.pm.set st.shift 0, st.dis.set st.shift false) (s % pat.length)
      hldis0 (Nat.mod_lt _ hL)
    rw [scanStep_dis_eq, ha, hkd]
    dsimp only
    rw [hany, hshift]
    rw [any_comp_bridge hp hi (by omega) (by omega)]
    have hbase : nth (st.dis.set (i % pat.length) false) (s % pat.length) false =
        decide (DisP pat t s i) := by
      by_cases hse : s = i
      · subst hse
        rw [nth_set_self false false (by rw [hdis]; exact Nat.mod_lt _ hL)]
        rw [decide_eq_false (@DisP_self pat t s)]
      · have hine : (i % pat.length) ≠ s % pat.length := by
          intro hcon
          exact hse (window_mod_inj (Nat.le_refl i) (by omega) (by omega) (by omega)
            hcon).symm
        rw [nth_set_ne false false hine]
        exact hD s (by omega) (by omega)
    rw [hbase]
    rw [decide_eq_decide.mpr (@DisP_succ pat t s i)]
    rw [Bool.decide_or]
  have hpm2 : ∀ s, s < i + 1 → i + 1 ≤ s + pat.length → ¬ DisP pat t s (i + 1) →
      nth (scanStep pat (idFrags pat) t.length st i c).pm (s % pat.length) 0 =
        CountM pat t s (i + 1) := by
    intro s hs1b hs2b hnd
    have hnoC : ∀ r ∈ (if (stepMatching (idFrags pat) st.cs c).1 then
        closedResults (idFrags pat) (stepMatching (idFrags pat) st.cs c).2
      else []), ¬(tgtC pat t.length i r ∧ slotOf pat st.shift r = s % pat.length) := by
      intro r hr hcon
      have hanytrue : (if (stepMatching (idFrags pat) st.cs c).1 then
          closedResults (idFrags pat) (stepMatching (idFrags pat) st.cs c).2
        else []).any (fun r => decide (tgtC pat t.length i r ∧
          slotOf pat st.shift r = s % pat.length)) = true :=
        List.any_eq_true.mpr ⟨r, hr, decide_eq_true hcon⟩
      rw [hany, hshift] at hanytrue
      rw [any_comp_bridge hp hi (by omega) (by omega)] at hanytrue
      rw [decide_eq_true_eq] at hanytrue
      exact hnd (DisP_succ.mpr (Or.inr hanytrue))
    have hkp := procRecords_pm pat t.length i st.shift hL
      (if (stepMatching (idFrags pat) st.cs c).1 then
        closedResults (idFrags pat) (stepMatching (idFrags pat) st.cs c).2
      else [])
      (st.pm.set st.shift 0, st.dis.set st.shift false) (s % pat.length)
      hlpm0 hldis0 (Nat.mod_lt _ hL) hnoC
    rcases hkp with ⟨e1, _⟩
    rw [scanStep_pm_eq, ha, e1]
    dsimp only
    rw [hshift, hcount]
    have hndi : ¬ DisP pat t s i := fun hcon => hnd (DisP_succ.mpr (Or.inl hcon))
    have hbaseD : nth (st.dis.set (i % pat.length) false) (s % pat.length) false = false := by
      by_cases hse : s = i
      · subst hse
        rw [nth_set_self false false (by rw [hdis]; exact Nat.mod_lt _ hL)]
      · have hine : (i % pat.length) ≠ s % pat.length := by
          intro hcon
          exact hse (window_mod_inj (Nat.le_refl i) (by omega) (by omega) (by omega)
            hcon).symm
        rw [nth_set_ne false false hine]
        rw [hD s (by omega) (by omega)]
        exact decide_eq_false hndi
    have hbaseP : nth (st.pm.set (i % pat.length) 0) (s % pat.length) 0 =
        CountM pat t s i := by
      by_cases hse : s = i
      · subst hse
        rw [nth_set_self 0 0 (by rw [hpm]; exact Nat.mod_lt _ hL)]
        rw [CountM_self hp]
      · have hine : (i % pat.length) ≠ s % pat.length := by
          intro hcon
          exact hse (window_mod_inj (Nat.le_refl i) (by omega) (by omega) (by omega)
            hcon).symm
        rw [nth_set_ne 0 0 hine]
        exact hP s (by omega) (by omega) hndi
    rw [hbaseD]
    simp only [Bool.false_eq_true, if_false]
    rw [hbaseP]
    rw [@CountM_succ pat t s i]
    by_cases hn : s + pat.length ≤ t.length
    · rw [countP_lit_bridge hp hi (by omega) (by omega) hn, if_pos hn]
    · rw [countP_lit_bridge_zero hp hi (by omega) (by omega) hn, if_neg hn]
  refine ⟨?_, ?_, ?_, ?_, hdis2, hpm2, ?_⟩
  · rw [scanStep_pm_eq, ha]
    rw [(procRecords_len pat t.length i st.shift
      (if (stepMatching (idFrags pat) st.cs c).1 then
        closedResults (idFrags pat) (stepMatching (idFrags pat) st.cs c).2
      else [])
      (st.pm.set st.shift 0, st.dis.set st.shift false)).1]
    exact hlpm0
  · rw [scanStep_dis_eq, ha]
    rw [(procRecords_len pat t.length i st.shift
      (if (stepMatching (idFrags pat) st.cs c).1 then
        closedResults (idFrags pat) (stepMatching (idFrags pat) st.cs c).2
      else [])
      (st.pm.set st.shift 0, st.dis.set st.shift false)).2]
    exact hldis0
  · rw [scanStep_shift_eq, hshift]
    exact succ_shift_eq pat.length i hL
  · rw [scanStep_cs_eq, hs2]
  · rw [scanStep_ms_eq, hM]
    have hshift2 : (scanStep pat (idFrags pat) t.length st i c).shift =
        (i + 1) % pat.length := by
      rw [scanStep_shift_eq, hshift]
      exact succ_shift_eq pat.length i hL
    rw [hshift2]
    by_cases hclose : pat.length ≤ i + 1
    · have hsw : (i + 1 - pat.length) % pat.length = (i + 1) % pat.length :=
        sub_len_mod pat.length (i + 1) hclose
      have hdom1 : i + 1 - pat.length < i + 1 := by omega
      have hdom2 : i + 1 ≤ (i + 1 - pat.length) + pat.length := by omega
      have hdisv := hdis2 (i + 1 - pat.length) hdom1 hdom2
      rw [hsw] at hdisv
      rw [hdisv]
      rw [filter_range_close (matchesAtB pat t) hclose]
      have hMB : matchesAtB pat t (i + 1 - pat.length) =
          (pat.parts.all (fun p =>
            decide ((t.drop ((i + 1 - pat.length) + p.offset)).take p.chars.length =
              p.chars)) &&
          pat.complement.all
            (fun c => !(nth t ((i + 1 - pat.length) + c.index) 0 == c.ch))) := rfl
      by_cases hdd : DisP pat t (i + 1 - pat.length) (i + 1)
      · rw [decide_eq_true hdd]
        have hcompl : pat.complement.all
            (fun c => !(nth t ((i + 1 - pat.length) + c.index) 0 == c.ch)) = false := by
          cases hv : pat.complement.all
              (fun c => !(nth t ((i + 1 - pat.length) + c.index) 0 == c.ch))
          · rfl
          · exact absurd hv (fun hvv => (close_dis_iff hp hi hclose).mp hdd hvv)
        have hcond : matchesAtB pat t (i + 1 - pat.length) = false := by
          rw [hMB, hcompl, Bool.and_false]
        rw [hcond]
        simp
      · have hpmv := hpm2 (i + 1 - pat.length) hdom1 hdom2 hdd
        rw [hsw] at hpmv
        rw [hpmv, decide_eq_false hdd]
        have hcompl : pat.complement.all
            (fun c => !(nth t ((i + 1 - pat.length) + c.index) 0 == c.ch)) = true := by
          by_contra hcon
          exact hdd ((close_dis_iff hp hi hclose).mpr hcon)
        by_cases hcnt : CountM pat t (i + 1 - pat.length) (i + 1) = pat.parts.length
        · have hparts := (close_count_iff hp hi hclose).mp hcnt
          have hcond : matchesAtB pat t (i + 1 - pat.length) = true := by
            rw [hMB, hparts, hcompl]
            rfl
          rw [hcond, hcnt]
          simp [hclose]
        · have hparts : pat.parts.all (fun p =>
              decide ((t.drop ((i + 1 - pat.length) + p.offset)).take p.chars.length =
                p.chars)) = false := by
            cases hv : pat.parts.all (fun p =>
                decide ((t.drop ((i + 1 - pat.length) + p.offset)).take p.chars.length =
                  p.chars))
            · rfl
            · exact absurd ((close_count_iff hp hi hclose).mpr hv) hcnt
          have hcond : matchesAtB pat t (i + 1 - pat.length) = false := by
            rw [hMB, hparts, Bool.false_and]
          rw [hcond]
          have hbeq : (CountM pat t (i + 1 - pat.length) (i + 1) == pat.parts.length) =
              false := by
            rw [beq_eq_false_iff_ne]
            exact hcnt
          rw [hbeq]
          simp
    · rw [filter_range_noclose (matchesAtB pat t) hclose]
      have hcond : decide (pat.length ≤ i + 1) = false := decide_eq_false hclose
      rw [hcond]
      simp

/-! ### The whole scan satisfies the invariant -/

theorem scanInv_init (pat : Pattern) (t : List Nat) (hp : PatInv pat) :
    ScanInv pat t 0 (initSt pat) := by
  refine ⟨by simp [initSt], by simp [initSt], by simp [initSt], ?_, ?_, ?_, ?_⟩
  · show ([] : List Nat) = LNS (idFrags pat) (t.take 0)
    rfl
  · intro s hs _
    omega
  · intro s hs _ _
    omega
  · show ([] : List Nat) = (List.range (0 + 1 - pat.length)).filter (matchesAtB pat t)
    have hL := hp.1
    have he : 0 + 1 - pat.length = 0 := by omega
    rw [he]
    rfl

theorem scanLoop_inv {pat : Pattern} {t : List Nat} (hp : PatInv pat) :
    ∀ (rest : List Nat) (i : Nat) (st : ScanSt), rest = t.drop i → ScanInv pat t i st →
      ScanInv pat t (i + rest.length)
        (scanLoop pat (idFrags pat) t.length st i rest) := by
  intro rest
  induction rest with
  | nil =>
    intro i st _ hinv
    simpa using hinv
  | cons c rest ih =>
    intro i st hdrop hinv
    have hc : t[i]? = some c := by
      have h0 : (t.drop i)[0]? = some c := by
        rw [← hdrop]
        simp
      rw [List.getElem?_drop] at h0
      simpa using h0
    have hdrop2 : rest = t.drop (i + 1) := by
      rw [← List.tail_drop, ← hdrop]
      rfl
    have hnext := ih (i + 1) (scanStep pat (idFrags pat) t.length st i c) hdrop2
      (scanStep_inv hp hc hinv)
    have hgoal : i + (c :: rest).length = i + 1 + rest.length := by
      simp [List.length_cons]
      omega
    rw [hgoal]
    exact hnext

theorem scan_correct {pat : Pattern} (hp : PatInv pat) (t : List Nat) :
    getTotalMatches pat t =
      (List.range (t.length + 1 - pat.length)).filter (matchesAtB pat t) := by
  have h := scanLoop_inv hp t 0 (initSt pat) rfl (scanInv_init pat t hp)
  have hms := h.2.2.2.2.2.2
  simp only [Nat.zero_add] at hms
  exact hms

/-! ### Claims -/

/-- Claim C1: for every Pattern satisfying the Data Model invariants and
every text, getTotalMatches returns exactly the start offsets s with
s + total_length within the text such that every literal fragment
reproduces the text bytes at s + offset and no complement's forbidden
character occurs at s + offset; the sequence is strictly increasing. -/
theorem claim1_scan_exact (pat : Pattern) (t : List Nat) (hp : PatInv pat) :
    getTotalMatches pat t =
      (List.range (t.length + 1 - pat.length)).filter (matchesAtB pat t) ∧
    (getTotalMatches pat t).Sorted (· < ·) := by
  refine ⟨scan_correct hp t, ?_⟩
  rw [scan_correct hp t]
  exact (List.pairwise_lt_range _).filter _

theorem claim1_scan_exact_witness :
    PatInv exPat ∧
      (getTotalMatches exPat exText =
        (List.range (exText.length + 1 - exPat.length)).filter (matchesAtB exPat exText) ∧
      (getTotalMatches exPat exText).Sorted (· < ·)) :=
  ⟨by decide, claim1_scan_exact exPat exText (by decide)⟩

/-- Claim C3: complement dominance — when some complement's forbidden
character occurs in the text at s plus the complement's offset, the
start offset s is never reported, literal matches notwithstanding. -/
theorem claim3_complement_dominance (pat : Pattern) (t : List Nat) (s : Nat)
    (hp : PatInv pat)
    (hfire : ∃ cc ∈ pat.complement, nth t (s + cc.index) 0 = cc.ch) :
    s ∉ getTotalMatches pat t := by
  rw [scan_correct hp t]
  intro hmem
  rcases List.mem_filter.mp hmem with ⟨_, hmB⟩
  rcases hfire with ⟨cc, hccm, hbyte⟩
  unfold matchesAtB at hmB
  rw [Bool.and_eq_true] at hmB
  have hall := List.all_eq_true.mp hmB.2 cc hccm
  rw [Bool.not_eq_true', beq_eq_false_iff_ne] at hall
  exact hall hbyte

theorem claim3_witness :
    PatInv exPatC ∧ (∃ cc ∈ exPatC.complement, nth exText (1 + cc.index) 0 = cc.ch) ∧
      1 ∉ getTotalMatches exPatC exText :=
  ⟨by decide, by decide,
    claim3_complement_dominance exPatC exText 1 (by decide) (by decide)⟩

/-- Claim C4: a pattern with no wildcards and no complements (a single
literal fragment at offset 0 spanning the whole pattern) scans exactly
like the naive quadratic substring search. -/
theorem claim4_plain_equals_naive (w t : List Nat) (hw : w ≠ []) :
    getTotalMatches ⟨[⟨0, w⟩], [], w.length⟩ t = naiveSearch w t := by
  have hp : PatInv ⟨[⟨0, w⟩], [], w.length⟩ := by
    refine ⟨List.length_pos.mpr hw, ?_, ?_, ?_, ?_⟩
    · intro p hp2
      rw [List.mem_singleton] at hp2
      subst hp2
      exact ⟨List.length_pos.mpr hw, by simp⟩
    · intro cc hcc
      simp at hcc
    · exact List.pairwise_singleton _ _
    · simp
  rw [scan_correct hp t]
  unfold naiveSearch
  apply List.filter_congr
  intro s _
  unfold matchesAtB
  simp only [List.all_cons, List.all_nil, Bool.and_true, Nat.add_zero]

theorem claim4_witness :
    getTotalMatches ⟨[⟨0, [97]⟩], [], ([97] : List Nat).length⟩ [97, 98, 97] =
      naiveSearch [97] [97, 98, 97] :=
  claim4_plain_equals_naive [97] [97, 98, 97] (by decide)

/-- Claim C5: an all-wildcard pattern of positive length L (no
fragments, no complements) matches at every start offset whose window
fits, with no special-casing in the scanner. -/
theorem claim5_all_wildcards (t : List Nat) (L : Nat) (hL : 0 < L) :
    getTotalMatches ⟨[], [], L⟩ t = List.range (t.length + 1 - L) := by
  have hp : PatInv ⟨[], [], L⟩ := by
    refine ⟨hL, ?_, ?_, List.Pairwise.nil, by simp⟩
    · intro p hp2
      simp at hp2
    · intro cc hcc
      simp at hcc
  rw [scan_correct hp t]
  apply List.filter_eq_self.mpr
  intro s _
  rfl

theorem claim5_witness :
    (0 : Nat) < 2 ∧
      getTotalMatches ⟨[], [], 2⟩ [5, 6, 7] =
        List.range (([5, 6, 7] : List Nat).length + 1 - 2) :=
  ⟨by decide, claim5_all_wildcards [5, 6, 7] 2 (by decide)⟩

/-- Properties of the fallback target of a nonempty path: a proper
suffix, again a path in the trie, and the longest such. -/
theorem fallbackOf_props (fl : List (Nat × List Nat)) (a : Nat) (t : List Nat) :
    fallbackOf fl (a :: t) <:+ a :: t ∧
    (fallbackOf fl (a :: t)).length < (a :: t).length ∧
    isNode fl (fallbackOf fl (a :: t)) = true ∧
    (∀ v, v <:+ a :: t → v ≠ a :: t → isNode fl v = true →
      v <:+ fallbackOf fl (a :: t)) := by
  refine ⟨?_, fallbackOf_length_lt (by simp), LNS_isNode fl t, ?_⟩
  · show LNS fl t <:+ a :: t
    exact (LNS_suffix fl t).trans (List.suffix_cons a t)
  · intro v hv hne hnode
    rcases List.suffix_cons_iff.mp hv with rfl | hv2
    · exact absurd rfl hne
    · exact LNS_max hv2 hnode

/-- Claim C6: for a state s with a transition on byte c, the fallback
pointer that forestIntoStateMachine assigns to the child (via the
findFallback walk over the parent's fallback chain, the root when the
walk fails) is the state reached by the longest proper suffix of the
child's path that is again a path from the root. -/
theorem claim6_fallback (fl : List (Nat × List Nat)) (s : List Nat) (c : Nat)
    (h1 : isNode fl s = true) (h2 : isNode fl (s ++ [c]) = true) :
    assignedFb fl s c <:+ s ++ [c] ∧
    (assignedFb fl s c).length < (s ++ [c]).length ∧
    isNode fl (assignedFb fl s c) = true ∧
    (∀ v, v <:+ s ++ [c] → v ≠ s ++ [c] → isNode fl v = true →
      v <:+ assignedFb fl s c) := by
  rw [assignedFb_eq]
  cases s with
  | nil => exact fallbackOf_props fl c []
  | cons a s2 => exact fallbackOf_props fl a (s2 ++ [c])

theorem claim6_witness :
    isNode exFl [1] = true ∧ isNode exFl ([1] ++ [2]) = true ∧
      (assignedFb exFl [1] 2 <:+ [1] ++ [2] ∧
      (assignedFb exFl [1] 2).length < (([1] : List Nat) ++ [2]).length ∧
      isNode exFl (assignedFb exFl [1] 2) = true ∧
      (∀ v, v <:+ [1] ++ [2] → v ≠ [1] ++ [2] → isNode exFl v = true →
        v <:+ assignedFb exFl [1] 2)) :=
  ⟨by decide, by decide, claim6_fallback exFl [1] 2 (by decide) (by decide)⟩

/-- Claim C9: the stepMatching loop terminates on every input — any
iteration bound above the current state's depth yields the stable
result, because every fallback hop moves to a strictly shallower state
and only the root lacks a fallback target. -/
theorem claim9_step_terminates :
    (∀ (fl : List (Nat × List Nat)) (fuel : Nat) (cs : List Nat) (c : Nat),
      cs.length < fuel → stepMatchingF fl fuel cs c = stepMatching fl cs c) ∧
    (∀ (fl : List (Nat × List Nat)) (w : List Nat), w ≠ [] →
      (fallbackOf fl w).length < w.length) := by
  constructor
  · intro fl fuel cs c hf
    exact stepMatchingF_stable fl fuel (cs.length + 1) cs c hf (Nat.lt_succ_self _)
  · intro fl w hw
    exact fallbackOf_length_lt hw

theorem claim9_witness :
    stepMatchingF exFl 2 [1] 2 = stepMatching exFl [1] 2 ∧
      (fallbackOf exFl [1]).length < ([1] : List Nat).length :=
  ⟨claim9_step_terminates.1 exFl 2 [1] 2 (by decide),
    claim9_step_terminates.2 exFl [1] (by decide)⟩

/-- Claim C8 evaluation: an empty search text yields the empty match
sequence (and the checked scan confirms no unchecked operation is
reached), but an empty pattern — total length 0 — on a nonempty text
drives the very first write into the zero-length circular buffers out
of bounds: the checked scan reports the failure. -/
theorem claim8_empty_inputs :
    (∀ pat : Pattern, getTotalMatches pat [] = [] ∧ scanChecked pat [] = some []) ∧
    scanChecked ⟨[], [], 0⟩ [97] = none := by
  exact ⟨fun pat => ⟨rfl, rfl⟩, rfl⟩

/-- Claim C7 counterexample: a malformed Pattern — its complement offset
equals its total length — is not rejected: the automaton is built from
it and the scan runs, even producing matches. -/
theorem claim7_counterexample :
    ¬ PatInv badPat ∧ getTotalMatches badPat [97, 97] = [0, 1] :=
  ⟨by decide, by decide⟩

/-- Claim C7 amended: no validation happens anywhere in the pipeline —
createPatternStructure itself produces this malformed Pattern from the
raw pattern "a!" (complement marker '!', wildcard '?') by reading the
NUL terminator as the forbidden character, and the automaton
construction and scan consume it without any error path. -/
theorem claim7_amended :
    createPatternStructure [97, 33] 63 33 = badPat ∧ ¬ PatInv badPat ∧
      getTotalMatches badPat [97, 97] ≠ [] :=
  ⟨by decide, by decide, by decide⟩

/-! ### Lockstep between the checked and the plain scanner -/

theorem csub_of_le {a b : Nat} (h : b ≤ a) : csub a b = some (a - b) := by
  unfold csub
  rw [if_pos h]

theorem cmod_of_pos {a b : Nat} (h : 0 < b) : cmod a b = some (a % b) := by
  unfold cmod
  rw [if_neg (by omega)]

theorem cidx_of_lt {α : Type} {l : List α} {i : Nat} (d : α) (h : i < l.length) :
    cidx l i = some (nth l i d) := by
  unfold cidx
  rw [nth_of_lt d h, List.getElem?_eq_getElem h]

theorem cset_of_lt {α : Type} {l : List α} {i : Nat} (v : α) (h : i < l.length) :
    cset l i v = some (l.set i v) := by
  unfold cset
  rw [if_pos h]

theorem goodRec_toff {pat : Pattern} (hp : PatInv pat) {r : Nat × Nat}
    (hr : ∃ p ∈ idFrags pat, r = (p.1, p.2.length)) :
    recTotalOffC pat r = some (recTotalOff pat r) ∧ recTotalOff pat r < pat.length := by
  rcases hr with ⟨p, hpmem, rfl⟩
  refine ⟨?_, recTotalOff_lt hp hpmem⟩
  unfold recTotalOffC recTotalOff
  by_cases hc : pat.parts.length ≤ p.1
  · rw [if_pos hc, if_pos hc]
    have hlt : p.1 - pat.parts.length < pat.complement.length := by
      rcases mem_idFrags.mp hpmem with ⟨h1, _⟩ | ⟨_, h2, _⟩
      · omega
      · exact h2
    rw [cidx_of_lt ⟨0, 0⟩ hlt]
    rfl
  · rw [if_neg hc, if_neg hc]
    have hlt : p.1 < pat.parts.length := by omega
    rw [cidx_of_lt ⟨0, []⟩ hlt]
    have hlen : p.2 ≠ [] := frag_ne_nil hp hpmem
    have hpos : 0 < p.2.length := by
      cases hq : p.2 with
      | nil => exact absurd hq hlen
      | cons x xs => simp
    simp only [Option.some_bind]
    rw [csub_of_le (show 1 ≤ (nth pat.parts p.1 ⟨0, []⟩).offset + (p.1, p.2.length).2 by
      simp only []
      omega)]

theorem closedResults_good {pat : Pattern} {w : List Nat} {r : Nat × Nat}
    (hr : r ∈ closedResults (idFrags pat) w) :
    ∃ p ∈ idFrags pat, r = (p.1, p.2.length) := by
  have hperm := closedResults_perm (idFrags pat) w
  rcases mem_suffixRecords.mp (hperm.mem_iff.mp hr) with ⟨p, hp, _, hr2⟩
  exact ⟨p, hp, hr2⟩

theorem procRecordC_eq {pat : Pattern} (hp : PatInv pat) {n i sh : Nat}
    {a : List Nat × List Bool} {r : Nat × Nat}
    (hr : ∃ p ∈ idFrags pat, r = (p.1, p.2.length))
    (h1 : a.1.length = pat.length) (h2 : a.2.length = pat.length) :
    procRecordC pat n i sh a r = some (procRecord pat n i sh a r) := by
  obtain ⟨htc, hto⟩ := goodRec_toff hp hr
  have hL : 0 < pat.length := hp.1
  simp only [procRecordC, procRecord, htc, Option.some_bind]
  by_cases hg1 : i < recTotalOff pat r
  · rw [if_pos hg1, if_pos hg1]
  · rw [if_neg hg1, if_neg hg1, csub_of_le (show recTotalOff pat r ≤ i by omega)]
    simp only [Option.some_bind]
    by_cases hg2 : n < i - recTotalOff pat r + pat.length
    · rw [if_pos hg2, if_pos hg2]
    · rw [if_neg hg2, if_neg hg2,
        csub_of_le (show recTotalOff pat r ≤ pat.length + sh by omega)]
      simp only [Option.some_bind]
      rw [cmod_of_pos hL]
      simp only [Option.some_bind]
      have hidx : (pat.length + sh - recTotalOff pat r) % pat.length < pat.length :=
        Nat.mod_lt _ hL
      by_cases hg3 : pat.parts.length ≤ r.1
      · rw [if_pos hg3, if_pos hg3,
          cset_of_lt true
            (show (pat.length + sh - recTotalOff pat r) % pat.length < a.2.length by
              rw [h2]; exact hidx)]
        rfl
      · rw [if_neg hg3, if_neg hg3,
          cidx_of_lt false
            (show (pat.length + sh - recTotalOff pat r) % pat.length < a.2.length by
              rw [h2]; exact hidx)]
        simp only [Option.some_bind]
        by_cases hg4 : nth a.2 ((pat.length + sh - recTotalOff pat r) % pat.length) false = true
        · rw [if_pos hg4, if_pos hg4]
        · rw [if_neg hg4, if_neg hg4,
            cidx_of_lt 0
              (show (pat.length + sh - recTotalOff pat r) % pat.length < a.1.length by
                rw [h1]; exact hidx)]
          simp only [Option.some_bind]
          rw [cset_of_lt (nth a.1 ((pat.length + sh - recTotalOff pat r) % pat.length) 0 + 1)
            (show (pat.length + sh - recTotalOff pat r) % pat.length < a.1.length by
              rw [h1]; exact hidx)]
          rfl

theorem procRecordsC_eq {pat : Pattern} (hp : PatInv pat) (n i sh : Nat) :
    ∀ (rs : List (Nat × Nat)) (a : List Nat × List Bool),
      (∀ r ∈ rs, ∃ p ∈ idFrags pat, r = (p.1, p.2.length)) →
      a.1.length = pat.length → a.2.length = pat.length →
      procRecordsC pat n i sh rs a = some (procRecords pat n i sh rs a)
  | [], _, _, _, _ => rfl
  | r :: rs, a, hgood, h1, h2 => by
    have hstep : procRecordsC pat n i sh (r :: rs) a =
        (procRecordC pat n i sh a r).bind (fun a2 => procRecordsC pat n i sh rs a2) := rfl
    rw [hstep, procRecordC_eq hp (hgood r (List.mem_cons_self r rs)) h1 h2, Option.some_bind,
      procRecords_cons]
    rcases procRecord_len pat n i sh a r with ⟨f1, f2⟩
    exact procRecordsC_eq hp n i sh rs (procRecord pat n i sh a r)
      (fun r2 hmem => hgood r2 (List.mem_cons_of_mem r hmem)) (f1.trans h1) (f2.trans h2)

theorem emitC_eq {L np i : Nat} {pmv : List Nat} {db : List Bool} {sh : Nat} {ms0 : List Nat}
    (hb : L ≤ i + 1 → sh < pmv.length ∧ sh < db.length) :
    (if L ≤ i + 1 then
       (cidx db sh).bind fun b =>
       if b then some ms0
       else (cidx pmv sh).bind fun pv =>
         if pv == np then (csub (i + 1) L).map (fun s0 => ms0 ++ [s0])
         else some ms0
     else some ms0) =
    some (if L ≤ i + 1 && !(nth db sh false) && (nth pmv sh 0 == np)
          then ms0 ++ [i + 1 - L] else ms0) := by
  by_cases hcl : L ≤ i + 1
  · rw [if_pos hcl, cidx_of_lt false (hb hcl).2]
    simp only [Option.some_bind]
    by_cases hdb : nth db sh false = true
    · rw [if_pos hdb, hdb]
      simp [hcl]
    · have hbf : nth db sh false = false := by
        cases hv : nth db sh false
        · rfl
        · exact absurd hv hdb
      rw [if_neg hdb, cidx_of_lt 0 (hb hcl).1]
      simp only [Option.some_bind]
      by_cases hpv : (nth pmv sh 0 == np) = true
      · rw [if_pos hpv, csub_of_le hcl, hbf, hpv]
        simp [hcl]
      · have hpf : (nth pmv sh 0 == np) = false := by
          cases hv : (nth pmv sh 0 == np)
          · rfl
          · exact absurd hv hpv
        rw [if_neg hpv, hpf]
        simp
  · rw [if_neg hcl]
    have hdf : decide (L ≤ i + 1) = false := by
      cases hv : decide (L ≤ i + 1)
      · rfl
      · exact absurd (of_decide_eq_true hv) hcl
    rw [hdf]
    simp

theorem scanStepC_eq {pat : Pattern} (hp : PatInv pat) {n : Nat} {st : ScanSt} {i c : Nat}
    (h1 : st.pm.length = pat.length) (h2 : st.dis.length = pat.length)
    (h3 : st.shift < pat.length) :
    scanStepC pat (idFrags pat) n st i c = some (scanStep pat (idFrags pat) n st i c) := by
  have hL : 0 < pat.length := hp.1
  simp only [scanStepC, scanStep]
  rw [cset_of_lt 0 (show st.shift < st.pm.length by rw [h1]; exact h3)]
  simp only [Option.some_bind]
  rw [cset_of_lt false (show st.shift < st.dis.length by rw [h2]; exact h3)]
  simp only [Option.some_bind]
  have hs1 : (if st.shift + 1 = pat.length then 0 else st.shift + 1) < pat.length := by
    by_cases hq : st.shift + 1 = pat.length
    · rw [if_pos hq]; exact hL
    · rw [if_neg hq]; omega
  by_cases hpr : (stepMatching (idFrags pat) st.cs c).1 = true
  · rw [if_pos hpr, if_pos hpr,
      procRecordsC_eq hp n i st.shift
        (closedResults (idFrags pat) (stepMatching (idFrags pat) st.cs c).2)
        (st.pm.set st.shift 0, st.dis.set st.shift false)
        (fun r hmem => closedResults_good hmem)
        (by simp [h1]) (by simp [h2])]
    simp only [Option.some_bind]
    rcases procRecords_len pat n i st.shift
        (closedResults (idFrags pat) (stepMatching (idFrags pat) st.cs c).2)
        (st.pm.set st.shift 0, st.dis.set st.shift false) with ⟨f1, f2⟩
    have hA1 : (if st.shift + 1 = pat.length then 0 else st.shift + 1) <
        (procRecords pat n i st.shift
          (closedResults (idFrags pat) (stepMatching (idFrags pat) st.cs c).2)
          (st.pm.set st.shift 0, st.dis.set st.shift false)).1.length := by
      rw [f1]; simpa [h1] using hs1
    have hA2 : (if st.shift + 1 = pat.length then 0 else st.shift + 1) <
        (procRecords pat n i st.shift
          (closedResults (idFrags pat) (stepMatching (idFrags pat) st.cs c).2)
          (st.pm.set st.shift 0, st.dis.set st.shift false)).2.length := by
      rw [f2]; simpa [h2] using hs1
    rw [emitC_eq (fun _ => ⟨hA1, hA2⟩)]
    simp only [Option.some_bind]
  · rw [if_neg hpr, if_neg hpr]
    simp only [Option.some_bind]
    have hB1 : (if st.shift + 1 = pat.length then 0 else st.shift + 1) <
        ((st.pm.set st.shift 0, st.dis.set st.shift false)).1.length := by
      simpa [h1] using hs1
    have hB2 : (if st.shift + 1 = pat.length then 0 else st.shift + 1) <
        ((st.pm.set st.shift 0, st.dis.set st.shift false)).2.length := by
      simpa [h2] using hs1
    rw [emitC_eq (fun _ => ⟨hB1, hB2⟩)]
    simp only [Option.some_bind]

theorem scanLoopC_eq {pat : Pattern} (hp : PatInv pat) (n : Nat) :
    ∀ (t : List Nat) (st : ScanSt) (i : Nat),
      st.pm.length = pat.length → st.dis.length = pat.length → st.shift < pat.length →
      scanLoopC pat (idFrags pat) n st i t =
        some (scanLoop pat (idFrags pat) n st i t).ms
  | [], _, _, _, _, _ => rfl
  | c :: rest, st, i, h1, h2, h3 => by
    have hstep : scanLoopC pat (idFrags pat) n st i (c :: rest) =
        (scanStepC pat (idFrags pat) n st i c).bind
          (fun st1 => scanLoopC pat (idFrags pat) n st1 (i + 1) rest) := rfl
    rw [hstep, scanStepC_eq hp h1 h2 h3, Option.some_bind]
    have hploop : scanLoop pat (idFrags pat) n st i (c :: rest) =
        scanLoop pat (idFrags pat) n (scanStep pat (idFrags pat) n st i c) (i + 1) rest := rfl
    rw [hploop]
    rcases procRecords_len pat n i st.shift
        (closedResults (idFrags pat) (stepMatching (idFrags pat) st.cs c).2)
        (st.pm.set st.shift 0, st.dis.set st.shift false) with ⟨f1, f2⟩
    have h1n : (scanStep pat (idFrags pat) n st i c).pm.length = pat.length := by
      rw [scanStep_pm_eq]
      by_cases hpr : (stepMatching (idFrags pat) st.cs c).1 = true
      · rw [if_pos hpr, f1]
        simp [h1]
      · rw [if_neg hpr]
        simp [h1]
    have h2n : (scanStep pat (idFrags pat) n st i c).dis.length = pat.length := by
      rw [scanStep_dis_eq]
      by_cases hpr : (stepMatching (idFrags pat) st.cs c).1 = true
      · rw [if_pos hpr, f2]
        simp [h2]
      · rw [if_neg hpr]
        simp [h2]
    have h3n : (scanStep pat (idFrags pat) n st i c).shift < pat.length := by
      rw [scanStep_shift_eq]
      by_cases hq : st.shift + 1 = pat.length
      · rw [if_pos hq]; exact hp.1
      · rw [if_neg hq]; omega
    exact scanLoopC_eq hp n rest (scanStep pat (idFrags pat) n st i c) (i + 1) h1n h2n h3n

/-- C10: for any well-formed pattern (the Data Model invariants of
section 3) and any search text, every vector access, size_t
subtraction and modulus the scanner getTotalMatches performs is in
bounds: the fully guarded rendering of the scan succeeds, and returns
exactly the matches of the unguarded one. -/
theorem claim10_no_oob (pat : Pattern) (t : List Nat) (hp : PatInv pat) :
    scanChecked pat t = some (getTotalMatches pat t) := by
  unfold scanChecked getTotalMatches
  exact scanLoopC_eq hp t.length t (initSt pat) 0 (by simp [initSt]) (by simp [initSt]) hp.1

theorem claim10_witness :
    PatInv exPatC ∧ scanChecked exPatC exText = some (getTotalMatches exPatC exText) :=
  ⟨by decide, claim10_no_oob exPatC exText (by decide)⟩

/-! ### The breadth-first closure pass of forestIntoStateMachine -/

theorem snoc_byte_inj {s : List Nat} {c1 c2 : Nat} (h : s ++ [c1] = s ++ [c2]) : c1 = c2 := by
  have h2 := List.append_cancel_left h
  simpa using h2

theorem assignedFb_length_le (fl : List (Nat × List Nat)) (s : List Nat) (c : Nat) :
    (assignedFb fl s c).length ≤ s.length := by
  rw [assignedFb_eq]
  have h := @fallbackOf_length_lt fl (s ++ [c]) (by simp)
  rw [List.length_append] at h
  simp only [List.length_singleton] at h
  omega

theorem updChild_ne {fl : List (Nat × List Nat)} {s : List Nat}
    {m : List Nat → List (Nat × Nat)} {c : Nat} {w : List Nat} (h : w ≠ s ++ [c]) :
    updChild fl s m c w = m w := by
  unfold updChild
  rw [if_neg h]

theorem updChild_self {fl : List (Nat × List Nat)} {s : List Nat}
    {m : List Nat → List (Nat × Nat)} {c : Nat} :
    updChild fl s m c (s ++ [c]) = m (s ++ [c]) ++ m (assignedFb fl s c) := by
  unfold updChild
  rw [if_pos rfl]

theorem foldl_updChild_other (fl : List (Nat × List Nat)) (s : List Nat) :
    ∀ (cs : List Nat) (m : List Nat → List (Nat × Nat)) (w : List Nat),
      (∀ c ∈ cs, w ≠ s ++ [c]) → cs.foldl (updChild fl s) m w = m w
  | [], _, _, _ => rfl
  | c0 :: cs2, m, w, h => by
    rw [List.foldl_cons,
      foldl_updChild_other fl s cs2 (updChild fl s m c0) w
        (fun c hc => h c (List.mem_cons_of_mem c0 hc))]
    exact updChild_ne (h c0 (List.mem_cons_self c0 cs2))

theorem foldl_updChild_self (fl : List (Nat × List Nat)) (s : List Nat) :
    ∀ (cs : List Nat) (m : List Nat → List (Nat × Nat)) (c : Nat),
      cs.Nodup → c ∈ cs →
      cs.foldl (updChild fl s) m (s ++ [c]) = m (s ++ [c]) ++ m (assignedFb fl s c)
  | [], _, _, _, hmem => absurd hmem (List.not_mem_nil _)
  | c0 :: cs2, m, c, hnd, hmem => by
    rw [List.foldl_cons]
    by_cases he : c = c0
    · subst he
      have hnotin : c ∉ cs2 := (List.nodup_cons.mp hnd).1
      rw [foldl_updChild_other fl s cs2 (updChild fl s m c) (s ++ [c])
        (fun c2 hc2 hcon => by
          have hcc : c = c2 := snoc_byte_inj hcon
          rw [hcc] at hnotin
          exact hnotin hc2)]
      exact updChild_self
    · have hmem2 : c ∈ cs2 := by
        rcases List.mem_cons.mp hmem with h1 | h1
        · exact absurd h1 he
        · exact h1
      rw [foldl_updChild_self fl s cs2 (updChild fl s m c0) c (List.nodup_cons.mp hnd).2 hmem2,
        updChild_ne (fun hcon => he (snoc_byte_inj hcon)),
        updChild_ne (show assignedFb fl s c ≠ s ++ [c0] by
          intro hcon
          have hlen := assignedFb_length_le fl s c
          rw [hcon, List.length_append] at hlen
          simp only [List.length_singleton] at hlen
          omega)]

theorem compileStep_other {fl : List (Nat × List Nat)} {s : List Nat}
    {m : List Nat → List (Nat × Nat)} {w : List Nat}
    (h : ∀ c ∈ childBytes fl s, w ≠ s ++ [c]) :
    compileStep fl m s w = m w :=
  foldl_updChild_other fl s (childBytes fl s) m w h

theorem compileStep_child {fl : List (Nat × List Nat)} {s : List Nat}
    {m : List Nat → List (Nat × Nat)} {c : Nat} (hc : c ∈ childBytes fl s) :
    compileStep fl m s (s ++ [c]) = m (s ++ [c]) ++ m (assignedFb fl s c) :=
  foldl_updChild_self fl s (childBytes fl s) m c
    (by unfold childBytes; exact List.nodup_dedup _) hc

theorem mem_childBytes {fl : List (Nat × List Nat)} {s : List Nat} {c : Nat} :
    c ∈ childBytes fl s ↔ isNode fl (s ++ [c]) = true := by
  unfold childBytes
  rw [List.mem_dedup, List.mem_filterMap]
  constructor
  · rintro ⟨p, hp, heq⟩
    by_cases hcond : s.length < p.2.length ∧ s <+: p.2
    · rw [if_pos hcond] at heq
      have hs : s = p.2.take s.length := List.prefix_iff_eq_take.mp hcond.2
      have hsnoc : s ++ [c] = p.2.take (s.length + 1) := by
        rw [List.take_succ, heq, ← hs]
        rfl
      apply isNode_iff.mpr
      right
      refine ⟨p, hp, ?_⟩
      rw [hsnoc]
      exact List.take_prefix (s.length + 1) p.2
    · rw [if_neg hcond] at heq
      cases heq
  · intro hnode
    rcases isNode_iff.mp hnode with h0 | ⟨p, hp, hpre⟩
    · simp at h0
    · refine ⟨p, hp, ?_⟩
      have h1 : s <+: p.2 := (List.prefix_append s [c]).trans hpre
      have h2 : (s ++ [c]).length ≤ p.2.length := hpre.length_le
      rw [List.length_append] at h2
      simp only [List.length_singleton] at h2
      have hlt : s.length < p.2.length := by omega
      rw [if_pos ⟨hlt, h1⟩]
      have hs : s = p.2.take s.length := List.prefix_iff_eq_take.mp h1
      have hs2 : s ++ [c] = p.2.take (s.length + 1) := by
        have h3 := List.prefix_iff_eq_take.mp hpre
        rw [h3]
        congr 1
        rw [List.length_append]
        simp
      rw [List.take_succ, ← hs] at hs2
      have h4 : [c] = p.2[s.length]?.toList := List.append_cancel_left hs2
      cases hop : p.2[s.length]? with
      | none =>
        rw [hop] at h4
        simp at h4
      | some x =>
        rw [hop] at h4
        have hcx : c = x := by simpa using h4
        rw [hcx]

theorem closedResults_snoc (fl : List (Nat × List Nat)) (s : List Nat) (c : Nat) :
    closedResults fl (s ++ [c]) =
      ownResults fl (s ++ [c]) ++ closedResults fl (fallbackOf fl (s ++ [c])) := by
  cases s with
  | nil => exact closedResults_cons fl c []
  | cons a s2 => exact closedResults_cons fl a (s2 ++ [c])

theorem fallbackOf_isNode (fl : List (Nat × List Nat)) (w : List Nat) :
    isNode fl (fallbackOf fl w) = true := by
  cases w with
  | nil => rfl
  | cons a t => exact LNS_isNode fl t

theorem node_dropLast_mem {fl : List (Nat × List Nat)} {O : List (List Nat)}
    (hclosed : ∀ p ∈ fl, ∀ k, k ≤ p.2.length → p.2.take k ∈ O)
    {w : List Nat} (hw : isNode fl w = true) (hne : w ≠ []) : w.dropLast ∈ O := by
  rcases isNode_iff.mp hw with h0 | ⟨p, hp, hpre⟩
  · exact absurd h0 hne
  · have h1 : w.dropLast <+: p.2 := (List.dropLast_prefix w).trans hpre
    have h2 : w.dropLast = p.2.take w.dropLast.length := List.prefix_iff_eq_take.mp h1
    have h3 : w.dropLast.length ≤ p.2.length := h1.length_le
    rw [h2]
    exact hclosed p hp w.dropLast.length h3

theorem compile_go {fl : List (Nat × List Nat)} {O : List (List Nat)}
    (hclosed : ∀ p ∈ fl, ∀ k, k ≤ p.2.length → p.2.take k ∈ O)
    (hnd : O.Nodup)
    (hsort : O.Pairwise (fun a b => a.length ≤ b.length)) :
    ∀ (rest P : List (List Nat)) (m : List Nat → List (Nat × Nat)),
      O = P ++ rest → CompInv fl P m →
      CompInv fl (P ++ rest) (rest.foldl (compileStep fl) m)
  | [], P, m, _, hInv => by
    simpa using hInv
  | s :: rest2, P, m, hO, hInv => by
    have hsP : s ∉ P := by
      intro hcon
      have hnd2 := hnd
      rw [hO] at hnd2
      exact (List.nodup_append.mp hnd2).2.2 hcon (List.mem_cons_self s rest2)
    have hsrt : ∀ x ∈ rest2, s.length ≤ x.length := by
      have hp2 : (s :: rest2).Pairwise (fun a b => a.length ≤ b.length) := by
        have hsort2 := hsort
        rw [hO] at hsort2
        exact List.Pairwise.sublist (List.sublist_append_right P (s :: rest2)) hsort2
      exact (List.pairwise_cons.mp hp2).1
    have hmemP : ∀ w2 ∈ O, w2.length < s.length → w2 ∈ P := by
      intro w2 hw2 hlen
      rw [hO] at hw2
      rcases List.mem_append.mp hw2 with h | h
      · exact h
      · rcases List.mem_cons.mp h with h1 | h1
        · rw [h1] at hlen
          omega
        · have := hsrt w2 h1
          omega
    have hstep : CompInv fl (P ++ [s]) (compileStep fl m s) := by
      constructor
      · intro d hdnode hdne hdpar
        rcases List.mem_append.mp hdpar with hin | hin
        · have hother : ∀ c ∈ childBytes fl s, d ≠ s ++ [c] := by
            intro c hc hcon
            apply hsP
            have hds : d.dropLast = s := by rw [hcon, List.dropLast_concat]
            rw [← hds]
            exact hin
          rw [compileStep_other hother]
          exact hInv.1 d hdnode hdne hin
        · have hds : d.dropLast = s := by simpa using hin
          have hdeq : d = s ++ [d.getLast hdne] := by
            rw [← hds]
            exact (List.dropLast_append_getLast hdne).symm
          have hcmem : d.getLast hdne ∈ childBytes fl s := by
            apply mem_childBytes.mpr
            rw [← hdeq]
            exact hdnode
          rw [hdeq, compileStep_child hcmem]
          have hown : m (s ++ [d.getLast hdne]) = ownResults fl (s ++ [d.getLast hdne]) := by
            apply hInv.2
            right
            rw [List.dropLast_concat]
            exact hsP
          have hfbv : m (assignedFb fl s (d.getLast hdne)) =
              closedResults fl (fallbackOf fl (s ++ [d.getLast hdne])) := by
            rw [assignedFb_eq]
            by_cases hfb : fallbackOf fl (s ++ [d.getLast hdne]) = []
            · rw [hfb, hInv.2 [] (Or.inl rfl), closedResults_nil]
            · have hfbnode := fallbackOf_isNode fl (s ++ [d.getLast hdne])
              have hfblen : (fallbackOf fl (s ++ [d.getLast hdne])).length < s.length + 1 := by
                have h := @fallbackOf_length_lt fl (s ++ [d.getLast hdne]) (by simp)
                rw [List.length_append] at h
                simp only [List.length_singleton] at h
                omega
              have hfbpos : 0 < (fallbackOf fl (s ++ [d.getLast hdne])).length :=
                List.length_pos.mpr hfb
              have hfbdrop : (fallbackOf fl (s ++ [d.getLast hdne])).dropLast ∈ P := by
                apply hmemP
                · exact node_dropLast_mem hclosed hfbnode hfb
                · rw [List.length_dropLast]
                  omega
              exact hInv.1 _ hfbnode hfb hfbdrop
          rw [hown, hfbv, ← closedResults_snoc]
      · intro d hd
        rcases hd with hdnil | hnp
        · have hother : ∀ c ∈ childBytes fl s, d ≠ s ++ [c] := by
            intro c hc hcon
            rw [hdnil] at hcon
            have hcl := congrArg List.length hcon
            rw [List.length_append] at hcl
            simp at hcl
          rw [compileStep_other hother]
          exact hInv.2 d (Or.inl hdnil)
        · have hnotP : d.dropLast ∉ P := fun h => hnp (List.mem_append.mpr (Or.inl h))
          have hnots : d.dropLast ≠ s := by
            intro h
            apply hnp
            apply List.mem_append.mpr
            right
            rw [h]
            exact List.mem_cons_self s []
          have hother : ∀ c ∈ childBytes fl s, d ≠ s ++ [c] := by
            intro c hc hcon
            apply hnots
            rw [hcon, List.dropLast_concat]
          rw [compileStep_other hother]
          exact hInv.2 d (Or.inr hnotP)
    have hO2 : O = (P ++ [s]) ++ rest2 := by
      rw [hO]
      simp
    have hrec := compile_go hclosed hnd hsort rest2 (P ++ [s]) (compileStep fl m s) hO2 hstep
    rw [List.foldl_cons]
    have hPe : P ++ s :: rest2 = (P ++ [s]) ++ rest2 := by simp
    rw [hPe]
    exact hrec

/-- C2: after the breadth-first pass of forestIntoStateMachine over the
trie (the queue order lists trie states, each exactly once, in
nondecreasing depth, and contains every prefix of every fragment), the
record list of every state equals its own addResult-inserted records
followed by the already-closed record list of its fallback state (the
suffix-closed list closedResults), and is therefore a permutation of
the transitive union along the fallback chain: one record for every
fragment that is a suffix of the state's path, so the scanner consults
only the current state's list and never walks fallback links to
collect matches. -/
theorem claim2_closed_lists (fl : List (Nat × List Nat)) (order : List (List Nat))
    (horder : ∀ w ∈ order, isNode fl w = true)
    (hclosed : ∀ p ∈ fl, ∀ k, k ≤ p.2.length → p.2.take k ∈ order)
    (hnd : order.Nodup)
    (hsort : order.Pairwise (fun a b => a.length ≤ b.length))
    (w : List Nat) (hw : isNode fl w = true) :
    compileFold fl order w = closedResults fl w ∧
      (compileFold fl order w).Perm (suffixRecords fl w) := by
  have hbase : CompInv fl [] (ownResults fl) := by
    constructor
    · intro d _ _ hmem
      exact absurd hmem (List.not_mem_nil _)
    · intro d _
      rfl
  have hfin := compile_go hclosed hnd hsort order [] (ownResults fl) rfl hbase
  have hmain : compileFold fl order w = closedResults fl w := by
    unfold compileFold
    by_cases hne : w = []
    · rw [hne, hfin.2 [] (Or.inl rfl), closedResults_nil]
    · apply hfin.1 w hw hne
      have hdm := node_dropLast_mem hclosed hw hne
      simpa using hdm
  exact ⟨hmain, by rw [hmain]; exact closedResults_perm fl w⟩

theorem claim2_witness :
    ((∀ w ∈ exOrder, isNode exFl w = true) ∧
     (∀ p ∈ exFl, ∀ k, k ≤ p.2.length → p.2.take k ∈ exOrder) ∧
     exOrder.Nodup ∧
     exOrder.Pairwise (fun a b => a.length ≤ b.length) ∧
     isNode exFl [1, 2] = true) ∧
    compileFold exFl exOrder [1, 2] = closedResults exFl [1, 2] ∧
      (compileFold exFl exOrder [1, 2]).Perm (suffixRecords exFl [1, 2]) :=
  ⟨⟨by decide, by decide, by decide, by decide, by decide⟩,
    claim2_closed_lists exFl exOrder (by decide) (by decide) (by decide) (by decide)
      [1, 2] (by decide)⟩

end AhoWild
